import Mathlib

/-!
# Verification of the github-llm-context-generator core

Shallow embedding of the repository's in-memory knowledge graph
(`src/graph/knowledgeGraph.js`), the LLM context builder
(`src/llm/llmIntegration.js`), and the query-engine helpers of
`src/loaders/githubLoader.js` that the specification's claims refer to,
together with proofs and refutations of those claims.

JavaScript is modelled as follows: JS `Map`s become insertion-ordered
association lists whose `set` replaces an existing key in place; JS numbers
appearing in this code are integers and are modelled as `Int`; JSON values
are a `Json` inductive with a faithful `JSON.stringify`; fallible paths
(runtime `ReferenceError`/`SyntaxError`/`TypeError` and the one regex
construct the code builds) are modelled with `Except String`.
-/

namespace CtxGen

/-- JS `String.prototype.toLowerCase` for the ASCII strings this code handles. -/
def sToLower (s : String) : String :=
  ⟨s.data.map Char.toLower⟩

/-- Substring containment on character lists: does `needle` occur
contiguously inside `hay`? -/
def containsSub (hay needle : List Char) : Bool :=
  if needle.isPrefixOf hay then true
  else
    match hay with
    | [] => false
    | _ :: rest => containsSub rest needle

/-- Split a character list at a separator character (JS
`String.prototype.split` with a one-character separator; an empty string
yields `[""]`). -/
def splitCharAux (sep : Char) : List Char → List Char → List String
  | [], acc => [⟨acc.reverse⟩]
  | c :: rest, acc =>
    if c == sep then ⟨acc.reverse⟩ :: splitCharAux sep rest []
    else splitCharAux sep rest (c :: acc)

/-- JS `s.split(sep)` for a one-character separator. -/
def jsSplitChar (s : String) (sep : Char) : List String :=
  splitCharAux sep s.data []

/-- JS `String.prototype.includes` (substring containment). -/
def sContains (hay needle : String) : Bool :=
  containsSub hay.data needle.data

/-- A JS regex word character (`\w`, i.e. `[A-Za-z0-9_]`), which also
determines `\b` word boundaries. -/
def wordChar (c : Char) : Bool :=
  c.isAlpha || c.isDigit || c == '_'

/-- Decimal digits, most significant first, with fuel (one unit per digit;
any fuel above the value itself is adequate, see `digitsFuel_irrel`). -/
def digitsFuel : Nat → Nat → List Char
  | 0, _ => []
  | fuel + 1, n =>
    if n < 10 then [Char.ofNat (48 + n)]
    else digitsFuel fuel (n / 10) ++ [Char.ofNat (48 + n % 10)]

/-- Decimal digits of a natural number, most significant first
(no sign, no leading zeros except for `0` itself). -/
def digitsOf (n : Nat) : List Char :=
  digitsFuel (n + 1) n

/-- Decimal rendering of a natural number, as JS template interpolation
`${n}` renders an integral number. -/
def natStr (n : Nat) : String :=
  ⟨digitsOf n⟩

/-- Decimal rendering of an integer, as JS renders an integral number. -/
def intStr (i : Int) : String :=
  if i < 0 then "-" ++ natStr i.natAbs else natStr i.toNat

/-- Value of a list of decimal digit characters, accumulator style
(the accumulating fold JS `parseInt` effectively performs). -/
def digitsVal (cs : List Char) (acc : Nat) : Nat :=
  cs.foldl (fun a c => a * 10 + (c.toNat - 48)) acc

/-- Is this character a decimal digit? -/
def isDigitChar (c : Char) : Bool := c.isDigit

/-- Is this character a hexadecimal digit? -/
def isHexDigitChar (c : Char) : Bool :=
  c.isDigit || ('a' ≤ c && c ≤ 'f') || ('A' ≤ c && c ≤ 'F')

/-- Value of a hexadecimal digit character. -/
def hexDigitVal (c : Char) : Nat :=
  if c.isDigit then c.toNat - 48
  else if 'a' ≤ c && c ≤ 'f' then c.toNat - 87
  else c.toNat - 55

/-- Value of a list of hexadecimal digit characters. -/
def hexVal (cs : List Char) : Nat :=
  cs.foldl (fun a c => a * 16 + hexDigitVal c) 0

/-- JS `parseInt(s) || 0`: skip leading whitespace, optional sign, then the
longest prefix of decimal digits (or, after a `0x`/`0X` prefix, hexadecimal
digits); an empty digit prefix gives `NaN`, which `|| 0` turns into `0`. -/
def jsParseIntOr0 (s : String) : Int :=
  let cs := s.data.dropWhile Char.isWhitespace
  let (sign, cs) : Int × List Char :=
    match cs with
    | '-' :: rest => (-1, rest)
    | '+' :: rest => (1, rest)
    | rest => (1, rest)
  match cs with
  | '0' :: x :: rest =>
    if x == 'x' || x == 'X' then
      let hx := rest.takeWhile isHexDigitChar
      if hx.isEmpty then 0 else sign * hexVal hx
    else
      let ds := ('0' :: x :: rest).takeWhile isDigitChar
      -- ds is nonempty here since it starts with '0'
      sign * digitsVal ds 0
  | cs =>
    let ds := cs.takeWhile isDigitChar
    if ds.isEmpty then 0 else sign * digitsVal ds 0

/-- JS `String.prototype.replace` with a plain-string pattern: replace the
first occurrence of `pat` (scanning left to right), or return the string
unchanged when `pat` does not occur. -/
def replaceFirstCs (pat repl : List Char) : List Char → List Char
  | [] => []
  | c :: rest =>
    if pat.isPrefixOf (c :: rest) then repl ++ (c :: rest).drop pat.length
    else c :: replaceFirstCs pat repl rest

/-- JS `s.replace(pat, repl)` for string patterns (first occurrence only). -/
def sReplaceFirst (s pat repl : String) : String :=
  ⟨replaceFirstCs pat.data repl.data s.data⟩

/-! ## A fragment of JS regular expressions

`searchNodes` builds `new RegExp("\\b" + query + "\\b", "g")` from the raw
query string and counts its matches.  We model exactly the fragment this
code can be observed on: queries made of word characters, spaces and `.`
(where `.` matches any character; the matched subject is a
`JSON.stringify` result, so it contains no line terminators), and the
construction-time `SyntaxError` thrown for an unbalanced `(` or `[`.
Everything else is outside the modelled fragment and mapped to a
distinguished error that no theorem below relies on. -/

/-- Does one pattern character match one subject character
(`.` is the wildcard, every other fragment character matches literally)? -/
def patCharMatches (p c : Char) : Bool :=
  p == '.' || p == c

/-- Word-ness of a character at a subject position; positions outside the
subject count as non-word, as in JS `\b`. -/
def wordAt (c : Option Char) : Bool :=
  match c with
  | none => false
  | some c => wordChar c

/-- JS `\b`: a word boundary lies between two positions iff exactly one of
them holds a word character. -/
def isWordBoundary (prev next : Option Char) : Bool :=
  wordAt prev != wordAt next

/-- Number of word-boundary positions in the subject (the match count of the
empty-query regex `\b\b`, which matches the empty string at each boundary). -/
def boundaryCount (prev : Option Char) (hay : List Char) : Nat :=
  match hay with
  | [] => if isWordBoundary prev none then 1 else 0
  | c :: rest =>
    (if isWordBoundary prev (some c) then 1 else 0) + boundaryCount (some c) rest

/-- Does `\b ++ pat ++ \b` match at the start of `hay`, where `prev` is the
subject character immediately before `hay` (`none` at the subject start)?
Only used for nonempty `pat`. -/
def matchesHere (pat : List Char) (prev : Option Char) (hay : List Char) : Bool :=
  decide (pat.length ≤ hay.length) &&
  isWordBoundary prev (hay.take pat.length).head? &&
  ((pat.zip hay).all fun pc => patCharMatches pc.1 pc.2) &&
  isWordBoundary (hay.take pat.length).getLast? (hay.drop pat.length).head?

/-- Global (non-overlapping, left-to-right) match count of `\b ++ pat ++ \b`
over the subject, with explicit fuel (one unit per subject position; the
subject shrinks by at least one character per step, so `hay.length` fuel is
exact). Only used for nonempty `pat`. -/
def scanCountFuel (pat : List Char) : Nat → Option Char → List Char → Nat
  | 0, _, _ => 0
  | _ + 1, _, [] => 0
  | fuel + 1, prev, c :: rest =>
    if matchesHere pat prev (c :: rest) then
      1 + scanCountFuel pat fuel ((c :: rest).take pat.length).getLast? ((c :: rest).drop pat.length)
    else
      scanCountFuel pat fuel (some c) rest

/-- Construction of `new RegExp("\\b" + q + "\\b")` throws a `SyntaxError`
for an unbalanced group or character class. -/
def regexConstructThrows (q : String) : Bool :=
  (q.data.contains '(' && !q.data.contains ')') ||
  (q.data.contains '[' && !q.data.contains ']')

/-- Query characters whose regex semantics the model covers. -/
def regexFragmentChar (c : Char) : Bool :=
  wordChar c || c == ' ' || c == '.'

/-- The match count of `dataStr.match(new RegExp("\\b" + q + "\\b", "g"))`,
on the modelled fragment; `SyntaxError` for an unbalanced `(`/`[`, and a
model-boundary error outside the fragment. -/
def jsWordBoundedRegexCount (q dataStr : String) : Except String Nat :=
  if regexConstructThrows q then
    .error "SyntaxError: Invalid regular expression"
  else if q.data.all regexFragmentChar then
    .ok (if q.data.isEmpty then boundaryCount none dataStr.data
         else scanCountFuel q.data dataStr.data.length none dataStr.data)
  else
    .error "model boundary: regex semantics outside the modelled fragment"

/-! ## JSON values and `JSON.stringify`

Node payloads (`data`) are the JS objects built by `knowledgeGraph.js`; the
scoring code serializes them with `JSON.stringify`.  JS `undefined` object
fields are modelled by omitting the field: that is faithful both for
property access (absent key) and for `JSON.stringify` (which drops
`undefined`-valued fields). -/

mutual

inductive Json where
  | null
  | bool (b : Bool)
  | num (n : Int)
  | str (s : String)
  | arr (elems : JsonList)
  | obj (fields : JsonFields)
deriving Repr

inductive JsonList where
  | nil
  | cons (hd : Json) (tl : JsonList)
deriving Repr

inductive JsonFields where
  | nil
  | cons (key : String) (val : Json) (tl : JsonFields)
deriving Repr

end

instance : Inhabited Json := ⟨Json.null⟩

/-- Build a `JsonList` from a Lean list. -/
def JsonList.ofList : List Json → JsonList
  | [] => .nil
  | j :: rest => .cons j (JsonList.ofList rest)

/-- The Lean list of a `JsonList`. -/
def JsonList.toList : JsonList → List Json
  | .nil => []
  | .cons j rest => j :: rest.toList

/-- Build `JsonFields` from a Lean association list. -/
def JsonFields.ofList : List (String × Json) → JsonFields
  | [] => .nil
  | kv :: rest => .cons kv.1 kv.2 (JsonFields.ofList rest)

/-- A JSON array from a Lean list. -/
def jarr (elems : List Json) : Json :=
  .arr (JsonList.ofList elems)

/-- A JSON object from a Lean association list (fields in insertion order). -/
def jobj (fields : List (String × Json)) : Json :=
  .obj (JsonFields.ofList fields)

mutual

/-- Structural equality of JSON values (JS `===` never compares two
object/array operands in this code, so value equality is faithful where
used). -/
def Json.beq : Json → Json → Bool
  | .null, .null => true
  | .bool a, .bool b => a == b
  | .num a, .num b => a == b
  | .str a, .str b => a == b
  | .arr a, .arr b => JsonList.beq a b
  | .obj a, .obj b => JsonFields.beq a b
  | _, _ => false

def JsonList.beq : JsonList → JsonList → Bool
  | .nil, .nil => true
  | .cons a as, .cons b bs => Json.beq a b && JsonList.beq as bs
  | _, _ => false

def JsonFields.beq : JsonFields → JsonFields → Bool
  | .nil, .nil => true
  | .cons k v tl, .cons k2 v2 tl2 => k == k2 && Json.beq v v2 && JsonFields.beq tl tl2
  | _, _ => false

end

instance : BEq Json := ⟨Json.beq⟩
instance : BEq JsonList := ⟨JsonList.beq⟩
instance : BEq JsonFields := ⟨JsonFields.beq⟩

/-- The escape `JSON.stringify` applies inside a string literal (the control
characters other than `\n`, `\t`, `\r` do not occur in the modelled data). -/
def jsonEscapeChar (c : Char) : List Char :=
  if c == '"' then ['\\', '"']
  else if c == '\\' then ['\\', '\\']
  else if c == '\n' then ['\\', 'n']
  else if c == '\t' then ['\\', 't']
  else if c == '\r' then ['\\', 'r']
  else [c]

/-- String-literal body escaping of `JSON.stringify`. -/
def jsonEscape (s : String) : String :=
  ⟨s.data.flatMap jsonEscapeChar⟩

mutual

/-- `JSON.stringify` (compact form, insertion-ordered object fields). -/
def Json.stringify : Json → String
  | .null => "null"
  | .bool b => if b then "true" else "false"
  | .num n => intStr n
  | .str s => "\"" ++ jsonEscape s ++ "\""
  | .arr elems => "[" ++ JsonList.stringifyElems elems ++ "]"
  | .obj fields => "\x7b" ++ JsonFields.stringifyFields fields ++ "\x7d"

/-- Comma-separated serializations of the elements of a JSON array. -/
def JsonList.stringifyElems : JsonList → String
  | .nil => ""
  | .cons j .nil => Json.stringify j
  | .cons j tl => Json.stringify j ++ "," ++ JsonList.stringifyElems tl

/-- Comma-separated `"key":value` serializations of the fields of a JSON
object. -/
def JsonFields.stringifyFields : JsonFields → String
  | .nil => ""
  | .cons k v .nil => "\"" ++ jsonEscape k ++ "\":" ++ Json.stringify v
  | .cons k v tl =>
    "\"" ++ jsonEscape k ++ "\":" ++ Json.stringify v ++ "," ++
      JsonFields.stringifyFields tl

end

/-- First field with the given key (JS objects cannot hold duplicate keys;
the objects this code builds never shadow). -/
def JsonFields.findKey : JsonFields → String → Option Json
  | .nil, _ => none
  | .cons k v tl, key => if k == key then some v else tl.findKey key

/-- JS property access `j[key]`: `none` models `undefined` (absent field, or
access on a non-object). -/
def Json.getField (j : Json) (key : String) : Option Json :=
  match j with
  | .obj fields => fields.findKey key
  | _ => none

/-- JS truthiness of a JSON value. -/
def Json.truthy (j : Json) : Bool :=
  match j with
  | .null => false
  | .bool b => b
  | .num n => n != 0
  | .str s => !s.isEmpty
  | .arr _ => true
  | .obj _ => true

/-- JS truthiness of a possibly-`undefined` value. -/
def jsTruthy (j : Option Json) : Bool :=
  match j with
  | none => false
  | some v => v.truthy

/-- JS strict equality `===` on the JSON values this code compares
(primitives compare by value; the code never reaches `===` on two
object/array operands, where JS reference equality would differ from the
structural `BEq` used here). -/
def jsStrictEq (a b : Json) : Bool :=
  a == b

/-! ## The knowledge graph store (`src/graph/knowledgeGraph.js`)

JS `Map`s are insertion-ordered association lists; `set` on an existing key
replaces its value in place, otherwise appends.  The impure
`new Date().toISOString()` timestamps are threaded in as explicit `now`
arguments. -/

/-- JS `Map.prototype.get`. -/
def jsMapGet (m : List (String × α)) (k : String) : Option α :=
  (m.find? fun kv => kv.1 == k).map Prod.snd

/-- JS `Map.prototype.has`. -/
def jsMapHas (m : List (String × α)) (k : String) : Bool :=
  m.any fun kv => kv.1 == k

/-- JS `Map.prototype.set`: replace in place, else append. -/
def jsMapSet (m : List (String × α)) (k : String) (v : α) : List (String × α) :=
  match m with
  | [] => [(k, v)]
  | kv :: rest =>
    if kv.1 == k then (k, v) :: rest else kv :: jsMapSet rest k v

/-- A graph node: `{ id, type, data, timestamp }`. -/
structure JNode where
  id : String
  type : String
  data : Json
  timestamp : String
deriving BEq, Repr, Inhabited

/-- A graph edge object:
`{ id, source, target, relationship, metadata, timestamp }`. -/
structure JEdge where
  id : String
  source : String
  target : String
  relationship : String
  metadata : Json
  timestamp : String
deriving BEq, Repr, Inhabited

/-- A value of the `edges` map.  `addEdge` stores each edge object under its
edge id and additionally keeps, under the source node id, an adjacency array
of edges; every consumer filters on which of the two shapes it finds. -/
inductive EdgeEntry where
  | edgeObj (e : JEdge)
  | adjArr (es : List JEdge)
deriving BEq, Repr, Inhabited

/-- The `KnowledgeGraph` instance state. -/
structure KnowledgeGraph where
  nodes : List (String × JNode)
  edges : List (String × EdgeEntry)
  repositories : List (String × String)
  nodeIdCounter : Int
  edgeIdCounter : Int
deriving Repr, Inhabited

/-- The freshly constructed (or cleared) graph. -/
def emptyGraph : KnowledgeGraph :=
  { nodes := [], edges := [], repositories := [],
    nodeIdCounter := 0, edgeIdCounter := 0 }

namespace KnowledgeGraph

/-- `generateNodeId`: `node_${++this.nodeIdCounter}`. -/
def generateNodeId (g : KnowledgeGraph) : String × KnowledgeGraph :=
  ("node_" ++ intStr (g.nodeIdCounter + 1),
   { g with nodeIdCounter := g.nodeIdCounter + 1 })

/-- `generateEdgeId`: `edge_${++this.edgeIdCounter}`. -/
def generateEdgeId (g : KnowledgeGraph) : String × KnowledgeGraph :=
  ("edge_" ++ intStr (g.edgeIdCounter + 1),
   { g with edgeIdCounter := g.edgeIdCounter + 1 })

/-- `addNode(type, data)`: uses `data.id` when truthy, else a generated id
(caller-supplied ids are strings in every use of the API; a truthy
non-string `data.id` would become a non-string `Map` key and is outside the
model). -/
def addNode (g : KnowledgeGraph) (type_ : String) (data : Json) (now : String) :
    String × KnowledgeGraph :=
  let (id, g) :=
    match data.getField "id" with
    | some (.str s) => if s.isEmpty then g.generateNodeId else (s, g)
    | some v => if v.truthy then (v.stringify, g) else g.generateNodeId
    | none => g.generateNodeId
  let node : JNode := { id := id, type := type_, data := data, timestamp := now }
  (id, { g with nodes := jsMapSet g.nodes id node })

/-- `addEdge(sourceId, targetId, relationship, metadata)`: stores the edge
object under its id, then pushes it onto the adjacency array kept under the
source id (creating the array on first use; if a non-array already sits
under `sourceId`, JS would throw calling `.push` on it — unreachable through
the API, left unchanged here). -/
def addEdge (g : KnowledgeGraph) (sourceId targetId relationship : String)
    (metadata : Json) (now : String) : String × KnowledgeGraph :=
  let (id, g) := g.generateEdgeId
  let edge : JEdge :=
    { id := id, source := sourceId, target := targetId,
      relationship := relationship, metadata := metadata, timestamp := now }
  let edges := jsMapSet g.edges id (.edgeObj edge)
  let edges :=
    match jsMapGet edges sourceId with
    | none => jsMapSet edges sourceId (.adjArr [edge])
    | some (.adjArr es) => jsMapSet edges sourceId (.adjArr (es ++ [edge]))
    | some (.edgeObj _) => edges
  (id, { g with edges := edges })

/-- `findNodesByType(type)`: all nodes of the given type, insertion order. -/
def findNodesByType (g : KnowledgeGraph) (type_ : String) : List JNode :=
  g.nodes.filterMap fun kv => if kv.2.type == type_ then some kv.2 else none

/-- `findNodesByProperty(property, value, type)`: nodes whose
`data[property] === value`, optionally filtered by type (a `null` type
applies no filter). -/
def findNodesByProperty (g : KnowledgeGraph) (property : String) (value : Json)
    (type? : Option String := none) : List JNode :=
  g.nodes.filterMap fun kv =>
    let node := kv.2
    if (match type? with | some t => node.type == t | none => true) then
      if node.data.truthy &&
          (match node.data.getField property with
           | some v => jsStrictEq v value
           | none => false) then
        some node
      else none
    else none

/-- `getNodeConnections(nodeId, relationship)`: every edge object touching
the node (either endpoint), optionally filtered by relationship label;
adjacency-array entries of the edges map are skipped. -/
def getNodeConnections (g : KnowledgeGraph) (nodeId : String)
    (relationship : Option String := none) : List JEdge :=
  g.edges.filterMap fun kv =>
    match kv.2 with
    | .adjArr _ => none
    | .edgeObj e =>
      if (e.source == nodeId || e.target == nodeId) &&
          (match relationship with | none => true | some r => e.relationship == r) then
        some e
      else none

/-- `traverseGraph(startNodeId, maxDepth, visited)` with explicit fuel.  The
JS recursion terminates because the shared `visited` set grows at every
productive call; the fuel is one unit per recursion level, and
`traverseGraph_fuel_adequate` below proves that any fuel larger than the
number of unvisited node keys computes the fixed point, so the wrapper
`traverseGraph` (fuel `g.nodes.length + 1`) is the JS function.  The
`visited` set is insertion-ordered in JS but only ever queried for
membership, so it is kept as a list extended at the head. -/
def traverseGraphFuel (g : KnowledgeGraph) :
    Nat → String → Int → List String → List JNode × List String
  | 0, _, _, visited => ([], visited)
  | fuel + 1, startNodeId, maxDepth, visited =>
    if visited.contains startNodeId || maxDepth == 0 then ([], visited)
    else
      let visited1 := startNodeId :: visited
      match jsMapGet g.nodes startNodeId with
      | none => ([], visited1)
      | some node =>
        (g.getNodeConnections startNodeId none).foldl
          (fun acc edge =>
            let nextNodeId :=
              if edge.source == startNodeId then edge.target else edge.source
            let r := traverseGraphFuel g fuel nextNodeId (maxDepth - 1) acc.2
            (acc.1 ++ r.1, r.2))
          ([node], visited1)

/-- `traverseGraph(startNodeId, maxDepth = 3, visited = new Set())`. -/
def traverseGraph (g : KnowledgeGraph) (startNodeId : String)
    (maxDepth : Int := 3) (visited : List String := []) : List JNode :=
  (g.traverseGraphFuel (g.nodes.length + 1) startNodeId maxDepth visited).1

/-- One node's relevance in `searchNodes`: `+2` when the type string
contains the lowercased query; when the node has truthy data whose
lowercased serialization contains the query, `+1` plus three times the
global match count of `\b query \b` (whose regex construction can throw). -/
def searchRelevance (queryLower : String) (node : JNode) : Except String Nat :=
  let base := if sContains node.type queryLower then 2 else 0
  if node.data.truthy then
    let dataStr := sToLower node.data.stringify
    if sContains dataStr queryLower then do
      let exactMatches ← jsWordBoundedRegexCount queryLower dataStr
      pure (base + 1 + exactMatches * 3)
    else pure base
  else pure base

/-- Stable insertion (descending relevance) used to model the stable JS
`Array.prototype.sort` with comparator `(a, b) => b.relevance - a.relevance`. -/
def insertScoredDesc (x : JNode × Nat) : List (JNode × Nat) → List (JNode × Nat)
  | [] => [x]
  | y :: ys => if x.2 ≥ y.2 then x :: y :: ys else y :: insertScoredDesc x ys

/-- Stable descending-by-relevance sort. -/
def sortScoredDesc (l : List (JNode × Nat)) : List (JNode × Nat) :=
  l.foldr insertScoredDesc []

/-- `searchNodes(query)`: score every node, keep positive scores, sort by
relevance descending (stable), return the nodes. -/
def searchNodes (g : KnowledgeGraph) (query : String) :
    Except String (List JNode) := do
  let queryLower := sToLower query
  let scored ← g.nodes.foldlM
    (fun acc kv => do
      let node := kv.2
      let relevance ← searchRelevance queryLower node
      pure (if relevance > 0 then acc ++ [(node, relevance)] else acc))
    ([] : List (JNode × Nat))
  pure ((sortScoredDesc scored).map Prod.fst)

/-- `getNodeCount()`. -/
def getNodeCount (g : KnowledgeGraph) : Nat :=
  g.nodes.length

/-- `getEdgeCount()`: counts only the edge-object entries of the edges map,
not the adjacency arrays. -/
def getEdgeCount (g : KnowledgeGraph) : Nat :=
  (g.edges.filter fun kv =>
    match kv.2 with | .edgeObj _ => true | .adjArr _ => false).length

/-- The `metadata` block of `export()` (its impure timestamp is omitted). -/
structure ExportMetadata where
  nodeCount : Nat
  edgeCount : Nat
  repositoryCount : Nat
deriving Repr, BEq

/-- An `export()` snapshot. -/
structure ExportedGraph where
  nodes : List JNode
  edges : List JEdge
  repositories : List (String × String)
  metadata : ExportMetadata
deriving Repr

/-- `export()`: each node entry is emitted as `{ id, ...node }`, in which
the spread node's own `id` field overrides the map key, so the emitted
object is the node object itself; only edge objects (not adjacency arrays)
are exported. -/
def exportData (g : KnowledgeGraph) : ExportedGraph :=
  { nodes := g.nodes.map Prod.snd,
    edges := g.edges.filterMap fun kv =>
      match kv.2 with | .edgeObj e => some e | .adjArr _ => none,
    repositories := g.repositories,
    metadata :=
      { nodeCount := g.nodes.length,
        edgeCount := g.getEdgeCount,
        repositoryCount := g.repositories.length } }

/-- `clear()`. -/
def clear (_ : KnowledgeGraph) : KnowledgeGraph :=
  emptyGraph

/-- `import(data)`: clear, then re-insert every node and edge keyed by its
own id, restoring each id counter to the maximum of
`parseInt(id.replace(prefix, '')) || 0`. -/
def importData (g : KnowledgeGraph) (data : ExportedGraph) : KnowledgeGraph :=
  let g := g.clear
  let g := data.nodes.foldl
    (fun g node =>
      { g with
        nodes := jsMapSet g.nodes node.id node,
        nodeIdCounter :=
          max g.nodeIdCounter (jsParseIntOr0 (sReplaceFirst node.id "node_" "")) })
    g
  let g := data.edges.foldl
    (fun g edge =>
      { g with
        edges := jsMapSet g.edges edge.id (.edgeObj edge),
        edgeIdCounter :=
          max g.edgeIdCounter (jsParseIntOr0 (sReplaceFirst edge.id "edge_" "")) })
    g
  { g with
    repositories := data.repositories.foldl
      (fun m kv => jsMapSet m kv.1 kv.2) g.repositories }

end KnowledgeGraph

/-! ## Parsed file records and `addFileToGraph`

The shapes produced by `src/parsers/fileParser.js` and consumed by
`addFileToGraph`.  Fields that a parser leaves `undefined` (e.g. a JSON
file's `functions`) are `Option` and omitted from the stored JSON. -/

/-- A parsed function record `{ name, line, type }` (`type` absent for the
Python parser). -/
structure ParsedFunc where
  name : String
  line : Int
  ftype : Option String
deriving Repr

/-- A parsed class record `{ name, extends, line }` (the JS parser) or
`{ name, extends, implements, line }` (the Java parser); `extends` is
`null` when absent. -/
structure ParsedClass where
  name : String
  extendsName : Option String
  implementsList : Option (List String)
  line : Int
deriving Repr

/-- A parsed comment record `{ text, line, type }`. -/
structure ParsedComment where
  text : String
  line : Int
  ctype : String
deriving Repr

/-- A parsed markdown heading record `{ level, text, line }`. -/
structure ParsedHeading where
  level : Int
  text : String
  line : Int
deriving Repr

/-- A parsed markdown code block record `{ language, code, line }`. -/
structure ParsedCodeBlock where
  language : String
  code : String
  line : Int
deriving Repr

/-- A parsed file as `fileParser.parseFile` returns it. -/
structure ParsedFile where
  path : String
  extension : String
  size : Int
  ftype : String
  raw : String
  functions : Option (List ParsedFunc)
  classes : Option (List ParsedClass)
  imports : Option (List String)
  exports : Option (List String)
  comments : Option (List ParsedComment)
  headings : Option (List ParsedHeading)
  codeBlocks : Option (List ParsedCodeBlock)
deriving Repr

/-- JSON encoding of a function record, field order as constructed. -/
def ParsedFunc.toJson (f : ParsedFunc) : Json :=
  jobj ([("name", .str f.name), ("line", .num f.line)] ++
    (match f.ftype with | some t => [("type", Json.str t)] | none => []))

/-- JSON encoding of a class record, field order as constructed. -/
def ParsedClass.toJson (c : ParsedClass) : Json :=
  jobj ([("name", .str c.name),
         ("extends", match c.extendsName with | some s => .str s | none => .null)] ++
    (match c.implementsList with
     | some l => [("implements", jarr (l.map Json.str))]
     | none => []) ++
    [("line", .num c.line)])

/-- JSON encoding of a comment record. -/
def ParsedComment.toJson (c : ParsedComment) : Json :=
  jobj [("text", .str c.text), ("line", .num c.line), ("type", .str c.ctype)]

/-- The `data` object of a `file` node, in the construction order of
`addFileToGraph` (fields whose parsed value is `undefined` are omitted). -/
def fileNodeData (file : ParsedFile) : Json :=
  jobj ([("path", .str file.path), ("extension", .str file.extension),
         ("size", .num file.size), ("type", .str file.ftype),
         ("raw", .str file.raw)] ++
    (match file.functions with
     | some fs => [("functions", jarr (fs.map ParsedFunc.toJson))]
     | none => []) ++
    (match file.classes with
     | some cs => [("classes", jarr (cs.map ParsedClass.toJson))]
     | none => []) ++
    (match file.imports with
     | some l => [("imports", jarr (l.map Json.str))]
     | none => []) ++
    (match file.exports with
     | some l => [("exports", jarr (l.map Json.str))]
     | none => []) ++
    (match file.comments with
     | some cs => [("comments", jarr (cs.map ParsedComment.toJson))]
     | none => []))

namespace KnowledgeGraph

/-- `addFileToGraph(file, parentId)`: creates the `file` node and its
`function`/`class`/`import`/`export`/`documentation`/`heading`/`codeblock`
children with their edges, including the best-effort `extends` links against
already-present classes and `references` links from imports to
already-present files. -/
def addFileToGraph (g : KnowledgeGraph) (file : ParsedFile)
    (parentId : Option String) (now : String) : String × KnowledgeGraph :=
  let (fileId, g) := g.addNode "file" (fileNodeData file) now
  let g :=
    match parentId with
    | some pid => (g.addEdge pid fileId "contains" (jobj []) now).2
    | none => g
  let g :=
    match file.functions with
    | none => g
    | some funcs =>
      funcs.foldl (fun g func =>
        let (funcId, g) := g.addNode "function"
          (jobj ([("name", .str func.name), ("file", .str file.path),
                  ("line", .num func.line)] ++
            (match func.ftype with
             | some t => [("type", Json.str t)] | none => []))) now
        (g.addEdge fileId funcId "defines" (jobj []) now).2) g
  let g :=
    match file.classes with
    | none => g
    | some classes =>
      classes.foldl (fun g cls =>
        let (classId, g) := g.addNode "class"
          (jobj ([("name", .str cls.name), ("file", .str file.path),
                  ("line", .num cls.line),
                  ("extends",
                   match cls.extendsName with | some s => .str s | none => .null)] ++
            (match cls.implementsList with
             | some l => [("implements", jarr (l.map Json.str))]
             | none => []))) now
        let g := (g.addEdge fileId classId "defines" (jobj []) now).2
        match cls.extendsName with
        | some ext =>
          if ext.isEmpty then g
          else
            (g.findNodesByProperty "name" (.str ext) (some "class")).foldl
              (fun g parentNode =>
                (g.addEdge classId parentNode.id "extends" (jobj []) now).2) g
        | none => g) g
  let g :=
    match file.imports with
    | none => g
    | some imps =>
      imps.foldl (fun g imp =>
        let (importId, g) := g.addNode "import"
          (jobj [("module", .str imp), ("file", .str file.path)]) now
        let g := (g.addEdge fileId importId "imports" (jobj []) now).2
        (g.findNodesByProperty "path" (.str imp) (some "file")).foldl
          (fun g moduleFile =>
            (g.addEdge importId moduleFile.id "references" (jobj []) now).2) g) g
  let g :=
    match file.exports with
    | none => g
    | some exps =>
      exps.foldl (fun g exp =>
        let (exportId, g) := g.addNode "export"
          (jobj [("name", .str exp), ("file", .str file.path)]) now
        (g.addEdge fileId exportId "exports" (jobj []) now).2) g
  let g :=
    match file.comments with
    | none => g
    | some comments =>
      if comments.length > 0 then
        let (docId, g) := g.addNode "documentation"
          (jobj [("file", .str file.path),
                 ("comments", jarr (comments.map ParsedComment.toJson))]) now
        (g.addEdge fileId docId "documents" (jobj []) now).2
      else g
  let g :=
    match file.headings with
    | none => g
    | some headings =>
      headings.foldl (fun g heading =>
        let (headingId, g) := g.addNode "heading"
          (jobj [("text", .str heading.text), ("level", .num heading.level),
                 ("file", .str file.path), ("line", .num heading.line)]) now
        (g.addEdge fileId headingId "contains" (jobj []) now).2) g
  let g :=
    match file.codeBlocks with
    | none => g
    | some blocks =>
      blocks.foldl (fun g block =>
        let (blockId, g) := g.addNode "codeblock"
          (jobj [("language", .str block.language), ("file", .str file.path),
                 ("line", .num block.line), ("code", .str block.code)]) now
        (g.addEdge fileId blockId "contains" (jobj []) now).2) g
  (fileId, g)

/-- `addFile(parsedFile)` = `addFileToGraph(parsedFile, null)`. -/
def addFile (g : KnowledgeGraph) (file : ParsedFile) (now : String) :
    String × KnowledgeGraph :=
  g.addFileToGraph file none now

end KnowledgeGraph

/-! ## Query-engine helpers of `src/loaders/githubLoader.js` -/

/-- A keyword produced by `extractKeywords`: the (lowercased) token and its
stem. -/
structure Keyword where
  original : String
  stemmed : String
deriving Repr

/-- `JSON.stringify(node)`, in the construction order of `addNode`. -/
def stringifyNode (n : JNode) : String :=
  (jobj [("id", .str n.id), ("type", .str n.type),
             ("data", n.data), ("timestamp", .str n.timestamp)]).stringify

/-- `calculateRelevance(node, keywords)`: per keyword, `+2` when the
lowercased node serialization contains the keyword, `+1` when it contains
the stem, and — when the node has a truthy `data.name` — `+5` for an exact
(lowercased) name match, else `+3` for a substring name match. -/
def calculateRelevance (node : JNode) (keywords : List Keyword) : Nat :=
  let nodeStr := sToLower (stringifyNode node)
  keywords.foldl
    (fun relevance keyword =>
      let r := relevance + (if sContains nodeStr keyword.original then 2 else 0)
      let r := r + (if sContains nodeStr keyword.stemmed then 1 else 0)
      if node.data.truthy && jsTruthy (node.data.getField "name") then
        match node.data.getField "name" with
        | some (.str nm) =>
          let name := sToLower nm
          if name == keyword.original then r + 5
          else if sContains name keyword.original then r + 3
          else r
        | _ => r
      else r)
    0

/-- A section record `{ start, end, matchLine }` built by
`extractRelevantCodeSection` (`stop` models the JS `end` property). -/
structure CodeSection where
  start : Int
  stop : Int
  matchLine : Int
deriving Repr, BEq, Inhabited

/-- Stable insertion by `start`, modelling the stable JS
`Array.prototype.sort` with comparator `(a, b) => a.start - b.start`. -/
def insertSectionByStart (x : CodeSection) : List CodeSection → List CodeSection
  | [] => [x]
  | y :: ys => if x.start ≤ y.start then x :: y :: ys else y :: insertSectionByStart x ys

/-- Stable sort of sections by start line. -/
def sortSectionsByStart (l : List CodeSection) : List CodeSection :=
  l.foldr insertSectionByStart []

/-- The coalescing loop of `mergeSections`: fold the sorted tail into the
running last range, merging when `current.start <= last.end + 5`. -/
def mergeSectionsAux (last : CodeSection) (done : List CodeSection) :
    List CodeSection → List CodeSection
  | [] => done ++ [last]
  | current :: rest =>
    if current.start ≤ last.stop + 5 then
      mergeSectionsAux { last with stop := max last.stop current.stop } done rest
    else
      mergeSectionsAux current (done ++ [last]) rest

/-- `mergeSections(sections)` (githubLoader): sort by start line, then
coalesce two ranges exactly when the next starts within 5 lines past the
previous end. -/
def mergeSections (sections : List CodeSection) : List CodeSection :=
  match sortSectionsByStart sections with
  | [] => []
  | s :: rest => mergeSectionsAux s [] rest

/-! ## The context builder (`src/llm/llmIntegration.js`)

`getContext` and its helpers.  The derived `summary`, `relationships`,
`codeSnippets` fields, the impure timestamp and the text/markdown
formatters are not modelled — no claim concerns them; the modelled context
carries the query, the selected nodes and `filesWithContent`. -/

/-- JS `Array.prototype.slice(0, n)` (a negative bound counts from the
end). -/
def jsSliceTo (l : List α) (n : Int) : List α :=
  if n < 0 then l.take (l.length - n.natAbs) else l.take n.toNat

/-- JS `Array.prototype.slice(s, e)` with both bounds clamped. -/
def jsSliceList (l : List α) (s e : Int) : List α :=
  let len : Int := l.length
  let lo := if s < 0 then max (len + s) 0 else min s len
  let hi := if e < 0 then max (len + e) 0 else min e len
  (l.take hi.toNat).drop lo.toNat

/-- JS `String.prototype.substring(0, n)`. -/
def jsSubstring0 (s : String) (n : Int) : String :=
  ⟨s.data.take n.toNat⟩

/-- `sep.join`-style concatenation: `parts.join(sep)`. -/
def joinSep (sep : String) (parts : List String) : String :=
  match parts with
  | [] => ""
  | p :: rest => rest.foldl (fun acc q => acc ++ sep ++ q) p

/-- The options object of `getContext`, with its defaults. -/
structure ContextOptions where
  maxNodes : Int := 50
  includeCode : Bool := true
  includeRelationships : Bool := true
  format : String := "structured"
  maxFiles : Int := 10
  maxCodeLength : Int := 5000
  includeFullFiles : Bool := true
deriving Repr

/-- A line range `{ start, end }` built by `extractRelevantSections`
(`stop` models the JS `end` property). -/
structure LineRange where
  start : Int
  stop : Int
deriving Repr, BEq, Inhabited

/-- The brace scan of one line in `findFunctionEnd`: returns whether the
scan hit a closing brace with `inFunction && braceCount === 0` (the early
`return`), together with the running state. -/
def braceScanLine : List Char → Int → Bool → Bool × Int × Bool
  | [], bc, inF => (false, bc, inF)
  | c :: rest, bc, inF =>
    if c == '{' then braceScanLine rest (bc + 1) true
    else if c == '}' then
      let bc1 := bc - 1
      if inF && bc1 == 0 then (true, bc1, inF)
      else braceScanLine rest bc1 inF
    else braceScanLine rest bc inF

/-- `findFunctionEnd(lines, startLine)`.  After scanning the braces of line
`i`, the loop body evaluates `fileData.type` — but `findFunctionEnd` has no
`fileData` in scope, so any iteration that does not `return` inside the
brace scan throws `ReferenceError: fileData is not defined`; consequently
only the first line is ever scanned.  A negative `startLine` makes
`lines[i]` `undefined`, and iterating its characters throws a `TypeError`.
When the loop body never runs (`startLine >= lines.length`) the function
returns `Math.min(startLine + 50, lines.length)`. -/
def findFunctionEnd (lines : List String) (startLine : Int) : Except String Int :=
  if startLine < (lines.length : Int) then
    if startLine < 0 then
      .error "TypeError: undefined is not iterable"
    else
      let line := lines.getD startLine.toNat ""
      let scan := braceScanLine line.data 0 false
      if scan.1 then .ok (startLine + 1)
      else .error "ReferenceError: fileData is not defined"
  else
    .ok (min (startLine + 50) (lines.length : Int))

/-- `findClassEnd` delegates to `findFunctionEnd`. -/
def findClassEnd (lines : List String) (startLine : Int) : Except String Int :=
  findFunctionEnd lines startLine

/-- The coalescing loop of `mergeRanges` (llmIntegration): the caller sorts;
two ranges merge when `current.start <= last.end + 1`. -/
def mergeRangesAux (last : LineRange) (done : List LineRange) :
    List LineRange → List LineRange
  | [] => done ++ [last]
  | current :: rest =>
    if current.start ≤ last.stop + 1 then
      mergeRangesAux { last with stop := max last.stop current.stop } done rest
    else
      mergeRangesAux current (done ++ [last]) rest

/-- `mergeRanges(ranges)` (llmIntegration): coalesce pre-sorted ranges with
a slack of one line. -/
def mergeRanges (ranges : List LineRange) : List LineRange :=
  match ranges with
  | [] => []
  | r :: rest => mergeRangesAux r [] rest

/-- Stable insertion by `start` for `includedRanges.sort((a, b) => a.start - b.start)`. -/
def insertRangeByStart (x : LineRange) : List LineRange → List LineRange
  | [] => [x]
  | y :: ys => if x.start ≤ y.start then x :: y :: ys else y :: insertRangeByStart x ys

/-- Stable sort of line ranges by start. -/
def sortRangesByStart (l : List LineRange) : List LineRange :=
  l.foldr insertRangeByStart []

/-- Does a line match `/^(import|export|from|require)/`? -/
def startsWithImportExport (line : String) : Bool :=
  ["import", "export", "from", "require"].any fun p => p.data.isPrefixOf line.data

/-- The indices of import/export-looking lines. -/
def importExportLineIdxs (lines : List String) : List Int :=
  lines.enum.filterMap fun il =>
    if startsWithImportExport il.2 then some (il.1 : Int) else none

/-- Decode one entry of `fileData.functions` / `fileData.classes` (the
stored records always carry a string `name` and a numeric `line`; anything
else is outside the model, where JS would go on to compute with `NaN`). -/
def decodeNameLine (j : Json) : Except String (String × Int) :=
  match j.getField "name", j.getField "line" with
  | some (.str n), some (.num l) => .ok (n, l)
  | _, _ => .error "model boundary: malformed function/class record"

/-- Build the name-keyed boundary map for `fileData.functions` or
`fileData.classes`: for each record, `start = line - 1` and
`end = findFunctionEnd(lines, start)`. -/
def boundaryRanges (lines : List String) (entries : List Json) :
    Except String (List (String × LineRange)) :=
  entries.foldlM
    (fun m j => do
      let (name, line) ← decodeNameLine j
      let startLine := line - 1
      let endLine ← findFunctionEnd lines startLine
      pure (jsMapSet m name { start := startLine, stop := endLine }))
    []

/-- The truthy-array check `if (fileData.functions)` followed by `forEach`:
a truthy non-array would make JS throw on `.forEach`. -/
def jsonArrayEntries (v : Option Json) : Except String (List Json) :=
  match v with
  | some (.arr es) => .ok es.toList
  | some j => if j.truthy then .error "TypeError: forEach is not a function" else .ok []
  | none => .ok []

/-- One merged range rendered to text: `lines.slice(start, end).join('\n')`. -/
def sectionStr (lines : List String) (r : LineRange) : String :=
  joinSep "\n" (jsSliceList lines r.start r.stop)

/-- The elision marker placed between kept sections. -/
def elisionMarker : String :=
  "\n\n// ...\n\n"

/-- The loop body of the budget loop of `extractRelevantSections`. -/
def takeSectionsGo (maxLength : Int) (currentLength : Int) (acc : List String) :
    List String → List String
  | [] => acc
  | s :: rest =>
    if currentLength + (s.length : Int) > maxLength && !acc.isEmpty then acc
    else takeSectionsGo maxLength (currentLength + s.length) (acc ++ [s]) rest

/-- The budget loop of `extractRelevantSections`: keep whole sections while
they fit; a section that would overflow stops the loop — except that the
very first section is always kept (`contentParts.length > 0` guards the
break). -/
def takeSectionsWithinBudget (maxLength : Int) (sections : List String) : List String :=
  takeSectionsGo maxLength 0 [] sections

/-- The section strings `extractRelevantSections` assembles for a file
before applying the budget: the import/export block, then every whole
function and class body (per `findFunctionEnd`), sorted and coalesced by
`mergeRanges`; an untruthy `raw` yields no sections. -/
def relevantSectionStrings (fileData : Json) : Except String (List String) :=
  match fileData.getField "raw" with
  | some (.str raw) =>
    if raw.isEmpty then .ok []
    else do
      let lines := jsSplitChar raw '\n'
      let importExportLines := importExportLineIdxs lines
      let functionEntries ← jsonArrayEntries (fileData.getField "functions")
      let functionLines ← boundaryRanges lines functionEntries
      let classEntries ← jsonArrayEntries (fileData.getField "classes")
      let classLines ← boundaryRanges lines classEntries
      let importRanges :=
        if importExportLines.length > 0 then
          match (importExportLines.filter (· < 50)).max? with
          | some importEnd =>
            if importEnd ≥ 0 then [{ start := 0, stop := importEnd + 1 : LineRange }]
            else []
          | none => []
        else []
      let includedRanges :=
        importRanges ++ functionLines.map Prod.snd ++ classLines.map Prod.snd
      let mergedRanges := mergeRanges (sortRangesByStart includedRanges)
      pure (mergedRanges.map (sectionStr lines))
  | some v => if v.truthy then .error "model boundary: non-string raw" else .ok []
  | none => .ok []

/-- `extractRelevantSections(fileData, maxLength)`: the budget-limited
concatenation of the file's merged sections, joined by the elision marker
(`''` when `raw` is untruthy, matching the final fallback line). -/
def extractRelevantSections (fileData : Json) (maxLength : Int) :
    Except String String := do
  let sections ← relevantSectionStrings fileData
  pure (joinSep elisionMarker (takeSectionsWithinBudget maxLength sections))

/-- `getSampleNodes(count)`. -/
def getSampleNodes (g : KnowledgeGraph) (count : Int) : List JNode :=
  jsSliceTo (g.nodes.map Prod.snd) count

/-- The dedup-push loop shared by the file/function/class stages of
`getRepositoryOverview` (no length check). -/
def overviewAddAll (st : List JNode × List String) (l : List JNode) :
    List JNode × List String :=
  l.foldl
    (fun st n =>
      if !st.2.contains n.id then (st.1 ++ [n], st.2 ++ [n.id]) else st)
    st

/-- The export stage of `getRepositoryOverview`: dedup-push while the node
list stays below `maxNodes`. -/
def overviewAddExports (maxNodes : Int) (st : List JNode × List String)
    (l : List JNode) : List JNode × List String :=
  l.foldl
    (fun st n =>
      if !st.2.contains n.id && (st.1.length : Int) < maxNodes then
        (st.1 ++ [n], st.2 ++ [n.id])
      else st)
    st

/-- `getRepositoryOverview(maxNodes)`: up to `⌊maxNodes / 3⌋` each of the
`file`, `function` and `class` nodes, then `export` nodes while below
`maxNodes`. -/
def getRepositoryOverview (g : KnowledgeGraph) (maxNodes : Int) : List JNode :=
  let st : List JNode × List String := ([], [])
  let st := overviewAddAll st (jsSliceTo (g.findNodesByType "file") (maxNodes.fdiv 3))
  let st := overviewAddAll st (jsSliceTo (g.findNodesByType "function") (maxNodes.fdiv 3))
  let st := overviewAddAll st (jsSliceTo (g.findNodesByType "class") (maxNodes.fdiv 3))
  let st := overviewAddExports maxNodes st (g.findNodesByType "export")
  st.1

/-- `findRelevantNodes(query, maxNodes)`: search, fall back to sample nodes
on an empty result, then push each hit (deduplicated) followed by up to five
of its depth-2 traversal neighbours while below `maxNodes`. -/
def findRelevantNodes (g : KnowledgeGraph) (query : String) (maxNodes : Int) :
    Except String (List JNode) := do
  let searchResults ← g.searchNodes query
  let nodesToProcess :=
    if searchResults.length > 0 then searchResults else getSampleNodes g maxNodes
  let st := (jsSliceTo nodesToProcess maxNodes).foldl
    (fun (st : List JNode × List String) node =>
      if !st.2.contains node.id then
        let st := (st.1 ++ [node], st.2 ++ [node.id])
        let connected := g.traverseGraph node.id 2 []
        (jsSliceTo connected 5).foldl
          (fun (st : List JNode × List String) connectedNode =>
            if !st.2.contains connectedNode.id && (st.1.length : Int) < maxNodes then
              (st.1 ++ [connectedNode], st.2 ++ [connectedNode.id])
            else st)
          st
      else st)
    (([], []) : List JNode × List String)
  pure st.1

/-- `prioritizeNodesByRelevance(nodes)`: files, then functions and classes,
then exports, then everything else. -/
def prioritizeNodesByRelevance (nodes : List JNode) : List JNode :=
  let files := nodes.filter fun n => n.type == "file"
  let functionsAndClasses :=
    nodes.filter fun n => n.type == "function" || n.type == "class"
  let exportNodes := nodes.filter fun n => n.type == "export"
  let others := nodes.filter fun n =>
    !(["file", "function", "class", "export"].contains n.type)
  files ++ functionsAndClasses ++ exportNodes ++ others

/-- One entry of `filesWithContent` (`ftype` models the JS `type` property;
`relevanceScore` reads `node.relevanceScore || 0`, and the nodes this
pipeline passes in carry no such property, so it is always `0`). -/
structure FileContent where
  path : String
  content : String
  fullLength : Nat
  ftype : String
  functions : Json
  classes : Json
  exports : Json
  imports : Json
  relevanceScore : Int
deriving Repr, BEq

/-- `x || []` on an optional JSON value. -/
def jsOrEmptyArr (v : Option Json) : Json :=
  match v with
  | some j => if j.truthy then j else jarr []
  | none => jarr []

/-- `fileNode.data.type || 'unknown'` (the stored `type` is a string). -/
def jsOrUnknown (v : Option Json) : String :=
  match v with
  | some (.str s) => if s.isEmpty then "unknown" else s
  | _ => "unknown"

/-- Assemble one `fileContent` record from a file node's data, replacing a
truncated body by `extractRelevantSections` when the raw content exceeds the
budget and full files were not requested. -/
def buildFileContent (path raw : String) (fileData : Json)
    (maxCodeLength : Int) (includeFullFiles : Bool) (relevanceScore : Int) :
    Except String FileContent := do
  let content :=
    if includeFullFiles then raw else jsSubstring0 raw maxCodeLength
  let content ←
    if !includeFullFiles && (raw.length : Int) > maxCodeLength then
      extractRelevantSections fileData maxCodeLength
    else pure content
  pure
    { path := path, content := content, fullLength := raw.length,
      ftype := jsOrUnknown (fileData.getField "type"),
      functions := jsOrEmptyArr (fileData.getField "functions"),
      classes := jsOrEmptyArr (fileData.getField "classes"),
      exports := jsOrEmptyArr (fileData.getField "exports"),
      imports := jsOrEmptyArr (fileData.getField "imports"),
      relevanceScore := relevanceScore }

/-- The node loop of `getFilesWithContent`, with its `break` on reaching
`maxFiles` after a push (the break check sits inside each branch but
outside the inner existence guards). -/
def gfwcLoop (g : KnowledgeGraph) (maxFiles maxCodeLength : Int)
    (includeFullFiles : Bool) :
    List JNode → List FileContent → List String → Except String (List FileContent)
  | [], acc, _ => .ok acc
  | node :: rest, acc, processedPaths =>
    match
      (if node.type == "file" && node.data.truthy then
        match node.data.getField "path" with
        | some (.str p) => if !p.isEmpty && !processedPaths.contains p then some p else none
        | _ => none
      else none) with
    | some p => do
      let processedPaths := processedPaths ++ [p]
      let acc ←
        match (g.findNodesByProperty "path" (.str p) (some "file")).head? with
        | some fileNode =>
          if fileNode.data.truthy then
            match fileNode.data.getField "raw" with
            | some (.str raw) =>
              if !raw.isEmpty then do
                let fc ← buildFileContent p raw fileNode.data maxCodeLength
                  includeFullFiles 0
                pure (acc ++ [fc])
              else pure acc
            | _ => pure acc
          else pure acc
        | none => pure acc
      if (acc.length : Int) ≥ maxFiles then pure acc
      else gfwcLoop g maxFiles maxCodeLength includeFullFiles rest acc processedPaths
    | none =>
      match
        (if node.data.truthy then
          match node.data.getField "file" with
          | some (.str f) => if !f.isEmpty && !processedPaths.contains f then some f else none
          | _ => none
        else none) with
      | some f => do
        let fileNodes := g.findNodesByProperty "path" (.str f) (some "file")
        let (acc, processedPaths) ←
          match fileNodes.head? with
          | some fileNode =>
            if fileNode.data.truthy then
              match fileNode.data.getField "raw" with
              | some (.str raw) =>
                if !raw.isEmpty then do
                  let fc ← buildFileContent f raw fileNode.data maxCodeLength
                    includeFullFiles 0
                  pure (acc ++ [fc], processedPaths ++ [f])
                else pure (acc, processedPaths)
              | _ => pure (acc, processedPaths)
            else pure (acc, processedPaths)
          | none => pure (acc, processedPaths)
        if (acc.length : Int) ≥ maxFiles then pure acc
        else gfwcLoop g maxFiles maxCodeLength includeFullFiles rest acc processedPaths
      | none => gfwcLoop g maxFiles maxCodeLength includeFullFiles rest acc processedPaths

/-- Stable insertion by descending `relevanceScore` for the final sort of
`getFilesWithContent`. -/
def insertFileByScoreDesc (x : FileContent) : List FileContent → List FileContent
  | [] => [x]
  | y :: ys =>
    if x.relevanceScore ≥ y.relevanceScore then x :: y :: ys
    else y :: insertFileByScoreDesc x ys

/-- Stable descending sort of file contents by relevance score. -/
def sortFilesByScoreDesc (l : List FileContent) : List FileContent :=
  l.foldr insertFileByScoreDesc []

/-- `getFilesWithContent(nodes, maxFiles, maxCodeLength, includeFullFiles)`. -/
def getFilesWithContent (g : KnowledgeGraph) (nodes : List JNode)
    (maxFiles maxCodeLength : Int) (includeFullFiles : Bool) :
    Except String (List FileContent) := do
  let prioritized := prioritizeNodesByRelevance nodes
  let files ← gfwcLoop g maxFiles maxCodeLength includeFullFiles prioritized [] []
  pure (sortFilesByScoreDesc files)

/-- The query dispatch of `getContext`: an empty query, or one whose
lowercased form contains `"overview"` or `"module"`, takes the
repository-overview path. -/
def isOverviewQuery (query : String) : Bool :=
  query.isEmpty || sContains (sToLower query) "overview" ||
    sContains (sToLower query) "module"

/-- The node-selection stage of `getContext`. -/
def selectRelevantNodes (g : KnowledgeGraph) (query : String) (maxNodes : Int) :
    Except String (List JNode) :=
  if isOverviewQuery query then pure (getRepositoryOverview g maxNodes)
  else findRelevantNodes g query maxNodes

/-- The modelled result of `getContext`. -/
structure BuiltContext where
  query : String
  nodes : List JNode
  filesWithContent : List FileContent
deriving Repr

/-- `getContext(query, options)`: select nodes (overview or relevance
search), then attach bounded file contents. -/
def getContext (g : KnowledgeGraph) (query : String)
    (options : ContextOptions := {}) : Except String BuiltContext := do
  let relevantNodes ← selectRelevantNodes g query options.maxNodes
  let filesWithContent ← getFilesWithContent g relevantNodes options.maxFiles
    options.maxCodeLength options.includeFullFiles
  pure { query := query, nodes := relevantNodes, filesWithContent := filesWithContent }

/-! ## Statement-support definitions

Quantities the claims talk about, and — for the refinement claims — a
second formulation written from the specification's words, to be compared
against the behaviour of the definitions above. -/

/-- Total character length of the emitted file contents (the excerpt the
budget claim bounds). -/
def totalContentLength (files : List FileContent) : Nat :=
  (files.map fun f => f.content.length).sum

/-- Total character length of a list of section strings. -/
def partsTotalLength (parts : List String) : Nat :=
  (parts.map String.length).sum

/-- The number of node-map keys not yet in the visited set (the quantity
whose strict decrease makes the JS `traverseGraph` recursion terminate). -/
def unvisitedCount (g : KnowledgeGraph) (visited : List String) : Nat :=
  ((g.nodes.map Prod.fst).filter fun k => !visited.contains k).length

/-- Are all elements of a list pairwise distinct? -/
def listNodupBool : List String → Bool
  | [] => true
  | x :: rest => !rest.contains x && listNodupBool rest

/-- The state invariant every API-reachable graph satisfies: map keys are
unique and each node/edge object is keyed by its own id. -/
def wellFormedState (g : KnowledgeGraph) : Bool :=
  listNodupBool (g.nodes.map Prod.fst) &&
  (g.nodes.all fun kv => kv.2.id == kv.1) &&
  listNodupBool (g.edges.map Prod.fst) &&
  (g.edges.all fun kv =>
    match kv.2 with | .edgeObj e => e.id == kv.1 | .adjArr _ => true)

/-- Modelled from the spec's words for the search-relevance claim: a
literal (non-regex) whole-word match of the query at the head of `hay`. -/
def literalMatchesAt (pat : List Char) (prev : Option Char) (hay : List Char) : Bool :=
  decide (pat.length ≤ hay.length) &&
  isWordBoundary prev (hay.take pat.length).head? &&
  ((pat.zip hay).all fun pc => pc.1 == pc.2) &&
  isWordBoundary (hay.take pat.length).getLast? (hay.drop pat.length).head?

/-- Modelled from the spec's words: the number of positions at which the
query occurs literally as a whole word. -/
def posCount (pat : List Char) : Option Char → List Char → Nat
  | _, [] => 0
  | prev, c :: rest =>
    (if literalMatchesAt pat prev (c :: rest) then 1 else 0) +
      posCount pat (some c) rest

/-- Modelled from the spec's words: "the count of whole-word exact
occurrences of the query in the serialized data". -/
def specWordOccurrences (q dataStr : String) : Nat :=
  posCount q.data none dataStr.data

/-- Modelled from the spec's words: relevance = 2·[type contains query] +
1·[serialized data contains query] + 3·(whole-word exact occurrences). -/
def specRelevance (queryLower : String) (node : JNode) : Nat :=
  (if sContains node.type queryLower then 2 else 0) +
  (if sContains (sToLower node.data.stringify) queryLower then 1 else 0) +
  3 * specWordOccurrences queryLower (sToLower node.data.stringify)

/-- The nodes of positive spec relevance, in insertion order, with their
spec relevances. -/
def specScored (g : KnowledgeGraph) (query : String) : List (JNode × Nat) :=
  g.nodes.filterMap fun kv =>
    let r := specRelevance (sToLower query) kv.2
    if r > 0 then some (kv.2, r) else none

/-- A character `JSON.stringify` leaves unescaped. -/
def jsonPlainChar (c : Char) : Bool :=
  !(c == '"' || c == '\\' || c == '\n' || c == '\t' || c == '\r')

/-! ## Concrete instances

Populated graphs and records used as failing inputs, counterexamples and
witnesses. -/

/-- A parsed JS file with two multi-line functions (the shape
`fileParser.parseJavaScript` produces). -/
def pfLogin : ParsedFile :=
  { path := "a.js", extension := ".js", size := 66, ftype := "javascript",
    raw := "function login() \x7b\n  return 1;\n\x7d\nfunction logout() \x7b\n  return 2;\n\x7d",
    functions := some [⟨"login", 1, some "regular"⟩, ⟨"logout", 4, some "regular"⟩],
    classes := some [], imports := some ["axios"], exports := some ["login"],
    comments := some [], headings := none, codeBlocks := none }

/-- A one-file populated graph. -/
def gLogin : KnowledgeGraph :=
  (emptyGraph.addFileToGraph pfLogin none "2024-01-01T00:00:00.000Z").2

/-- A parsed file whose single function opens and closes its braces on its
first line, which is longer than a small `maxCodeLength` budget. -/
def pfWide : ParsedFile :=
  { path := "w.js", extension := ".js", size := 42, ftype := "javascript",
    raw := "function f() \x7b return 1234567; \x7d\nmore text",
    functions := some [⟨"f", 1, some "regular"⟩],
    classes := some [], imports := some [], exports := some [],
    comments := some [], headings := none, codeBlocks := none }

/-- The one-file graph for the budget counterexample. -/
def gWide : KnowledgeGraph :=
  (emptyGraph.addFileToGraph pfWide none "2024-01-01T00:00:00.000Z").2

/-- Two nodes identical except for `data.name`, against the query `a.c`:
the serialized data of the first contains `a.c` once literally but its
regex `\ba.c\b` (where `.` matches any character) also matches `abc`. -/
def nodeDotA : JNode :=
  { id := "node_1", type := "thing",
    data := jobj [("k", .str "a.c abc")],
    timestamp := "2024-01-01T00:00:00.000Z" }

/-- A node whose serialized data contains `a.c` literally twice. -/
def nodeDotB : JNode :=
  { id := "node_2", type := "thing",
    data := jobj [("k", .str "a.c z a.c")],
    timestamp := "2024-01-01T00:00:00.000Z" }

/-- The two-node graph for the search-relevance counterexample. -/
def gDot : KnowledgeGraph :=
  { nodes := [("node_1", nodeDotA), ("node_2", nodeDotB)],
    edges := [], repositories := [],
    nodeIdCounter := 2, edgeIdCounter := 0 }

/-- A node whose `data.name` is exactly `foo`. -/
def nodeNameFoo : JNode :=
  { id := "node_1", type := "function",
    data := jobj [("name", .str "foo")],
    timestamp := "2024-01-01T00:00:00.000Z" }

/-- The otherwise-identical node whose `data.name` is `foobar`. -/
def nodeNameFoobar : JNode :=
  { id := "node_1", type := "function",
    data := jobj [("name", .str "foobar")],
    timestamp := "2024-01-01T00:00:00.000Z" }

/-- The keyword list `[foo, foobar]` (each keyword its own stem). -/
def kwFooFoobar : List Keyword :=
  [⟨"foo", "foo"⟩, ⟨"foobar", "foobar"⟩]

/-- A three-node graph whose edges form a cycle, built through the API. -/
def gCycle : KnowledgeGraph :=
  let now := "2024-01-01T00:00:00.000Z"
  let (a, g) := emptyGraph.addNode "file" (jobj [("path", .str "x.js")]) now
  let (b, g) := g.addNode "function" (jobj [("name", .str "f")]) now
  let (c, g) := g.addNode "function" (jobj [("name", .str "h")]) now
  let g := (g.addEdge a b "defines" (jobj []) now).2
  let g := (g.addEdge b c "references" (jobj []) now).2
  let g := (g.addEdge c a "references" (jobj []) now).2
  g

/-- A three-file populated graph (for the overview-selection scenario). -/
def gThreeFiles : KnowledgeGraph :=
  let now := "2024-01-01T00:00:00.000Z"
  let pf (p : String) (fn : String) : ParsedFile :=
    { path := p, extension := ".js", size := 20, ftype := "javascript",
      raw := "function " ++ fn ++ "() \x7b return 1; \x7d",
      functions := some [⟨fn, 1, some "regular"⟩],
      classes := some [], imports := some [], exports := some [fn],
      comments := some [], headings := none, codeBlocks := none }
  let g := (emptyGraph.addFileToGraph (pf "a.js" "alpha") none now).2
  let g := (g.addFileToGraph (pf "b.js" "beta") none now).2
  let g := (g.addFileToGraph (pf "c.js" "gamma") none now).2
  g

end CtxGen

set_option maxRecDepth 40000

namespace CtxGen

/-! ## Theorems -/

/-- Claim C1 (code bug) — the spec says `buildContext` never throws once the
graph is populated and `includeFullContent=false`; but on the API-populated
one-file graph `gLogin` (whose `login` function body spans three lines and
whose raw content exceeds the 10-character budget), `extractRelevantSections`
calls `findFunctionEnd`, whose loop body dereferences the out-of-scope
identifier `fileData` after failing to close the braces on the first line,
so `getContext` propagates a `ReferenceError` instead of returning a
result. -/
theorem claim_C1_buildContext_throws_reference_error :
    getContext gLogin "" { includeFullFiles := false, maxCodeLength := 10 } =
      .error "ReferenceError: fileData is not defined" := by
  rfl

/-- Claim C8 (code bug) — the spec says no core query is fatal and a query
matching nothing yields an empty result; but `searchNodes` interpolates the
raw query into `new RegExp("\\b" + query + "\\b", "g")`, so on the populated
graph `gLogin` (whose file data contains `(`) the query `"("` makes the
regex constructor throw a `SyntaxError`.  A non-matching ordinary query does
return an empty result, as the spec states. -/
theorem claim_C8_searchNodes_throws_on_regex_metachar :
    gLogin.searchNodes "(" = .error "SyntaxError: Invalid regular expression" ∧
    gLogin.searchNodes "nosuchthing" = .ok [] := by
  constructor
  · rfl
  · rfl

/-- Claim C3, counterexample — the context builder's own merge
(`mergeRanges` in llmIntegration, applied after the caller sorts) coalesces
only when the next start is within one line past the previous end: the
sorted ranges `[(0,5),(9,12)]` lie within the claimed slack of 5 but stay
unmerged, where the claim requires `[(0,12)]`. -/
theorem claim_C3_counterexample :
    mergeRanges (sortRangesByStart
        [{ start := 0, stop := 5 }, { start := 9, stop := 12 }]) =
      [{ start := 0, stop := 5 }, { start := 9, stop := 12 }] ∧
    ([{ start := 0, stop := 5 }, { start := 9, stop := 12 }] :
        List LineRange) ≠ [{ start := 0, stop := 12 }] := by
  constructor
  · rfl
  · simp

/-- Claim C2, counterexample — on the populated one-file graph `gWide` with
`includeFullContent=false`, `maxCodeLength = 5` and `maxFiles = 1`, the
excerpt built by `buildContext` is 32 characters long: the budget loop
always keeps the first merged section (the whole single-line function) even
though it alone exceeds the budget, so the claimed bound
`maxCodeLength × maxFiles = 5` fails. -/
theorem claim_C2_counterexample :
    (getContext gWide ""
        { includeFullFiles := false, maxCodeLength := 5, maxFiles := 1 }).map
      (fun c => totalContentLength c.filesWithContent) = .ok 32 ∧
    ¬ (32 ≤ 5 * 1) := by
  constructor
  · rfl
  · omega

/-- Claim C7, counterexample — under `calculateRelevance` with the keyword
list `[foo, foobar]`, the node whose `data.name` is exactly `foo` scores 8,
while the otherwise-identical node whose name `foobar` only properly
contains `foo` scores 14: the second keyword matches the latter's name
exactly, so the claimed strict dominance fails for this keyword list. -/
theorem claim_C7_counterexample :
    calculateRelevance nodeNameFoo kwFooFoobar = 8 ∧
    calculateRelevance nodeNameFoobar kwFooFoobar = 14 ∧
    sToLower "foo" = "foo" ∧
    sContains (sToLower "foobar") "foo" = true ∧
    sToLower "foobar" ≠ "foo" ∧
    ¬ (calculateRelevance nodeNameFoobar kwFooFoobar <
        calculateRelevance nodeNameFoo kwFooFoobar) := by
  refine ⟨rfl, rfl, rfl, rfl, by simp [sToLower], ?_⟩
  intro h
  rw [show calculateRelevance nodeNameFoo kwFooFoobar = 8 from rfl,
      show calculateRelevance nodeNameFoobar kwFooFoobar = 14 from rfl] at h
  omega

/-- Claim C4, counterexample — for the query `a.c` on the two-node graph
`gDot`, `searchNodes` returns the nodes in insertion order (both score 7 in
the code, whose `+3` factor counts matches of the regex `\ba.c\b`, where
`.` matches any character), although the claimed relevance — which counts
literal whole-word occurrences — gives the first node 4 and the second 7,
so the claimed descending order is violated. -/
theorem claim_C4_counterexample :
    gDot.searchNodes "a.c" = .ok [nodeDotA, nodeDotB] ∧
    specRelevance "a.c" nodeDotA = 4 ∧
    specRelevance "a.c" nodeDotB = 7 ∧
    specRelevance "a.c" nodeDotA < specRelevance "a.c" nodeDotB := by
  refine ⟨rfl, rfl, rfl, ?_⟩
  rw [show specRelevance "a.c" nodeDotA = 4 from rfl,
      show specRelevance "a.c" nodeDotB = 7 from rfl]
  omega

/-! ### Substring containment -/

theorem containsSub_iff (hay needle : List Char) :
    containsSub hay needle = true ↔ needle <:+: hay := by
  induction hay with
  | nil =>
    rw [containsSub, List.infix_nil]
    by_cases hp : needle.isPrefixOf ([] : List Char) = true
    · have h := List.isPrefixOf_iff_prefix.1 hp
      rw [List.prefix_nil] at h
      simp [hp, h]
    · have h : ¬ needle = [] := by
        intro he
        apply hp
        rw [he]
        rfl
      simp [hp, h]
  | cons c rest ih =>
    by_cases hp : needle.isPrefixOf (c :: rest) = true
    · rw [containsSub, if_pos hp, List.infix_cons_iff]
      exact ⟨fun _ => Or.inl (List.isPrefixOf_iff_prefix.1 hp), fun _ => rfl⟩
    · rw [containsSub, if_neg hp, List.infix_cons_iff]
      show containsSub rest needle = true ↔ _
      rw [ih]
      constructor
      · exact Or.inr
      · rintro (h | h)
        · exact absurd (List.isPrefixOf_iff_prefix.2 h) hp
        · exact h

theorem sContains_iff (hay needle : String) :
    sContains hay needle = true ↔ needle.data <:+: hay.data :=
  containsSub_iff hay.data needle.data

theorem sContains_of_infix {hay needle : String}
    (h : needle.data <:+: hay.data) : sContains hay needle = true :=
  (sContains_iff hay needle).2 h

theorem sToLower_data (s : String) :
    (sToLower s).data = s.data.map Char.toLower := rfl

theorem sContains_toLower_of_infix {hay needle : String}
    (h : needle.data <:+: hay.data) :
    sContains (sToLower hay) (sToLower needle) = true := by
  apply sContains_of_infix
  rw [sToLower_data, sToLower_data]
  exact h.map Char.toLower

theorem jsonEscape_plain (s : String) (h : s.data.all jsonPlainChar = true) :
    jsonEscape s = s := by
  have aux : ∀ (cs : List Char), cs.all jsonPlainChar = true →
      cs.flatMap jsonEscapeChar = cs := by
    intro cs hcs
    induction cs with
    | nil => rfl
    | cons c rest ih =>
      rw [List.all_cons, Bool.and_eq_true] at hcs
      have hplain := hcs.1
      have hc : jsonEscapeChar c = [c] := by
        rw [jsonEscapeChar]
        split_ifs with h1 h2 h3 h4 h5
        · rw [jsonPlainChar, h1] at hplain; simp at hplain
        · rw [jsonPlainChar, h2] at hplain; simp at hplain
        · rw [jsonPlainChar, h3] at hplain; simp at hplain
        · rw [jsonPlainChar, h4] at hplain; simp at hplain
        · rw [jsonPlainChar, h5] at hplain; simp at hplain
        · rfl
      rw [List.flatMap_cons, hc, ih hcs.2]
      rfl
  show String.mk (s.data.flatMap jsonEscapeChar) = s
  rw [aux s.data h]

/-- The serialization of each field value occurs inside the comma-joined
field serializations. -/
theorem stringifyFields_field_infix (l : List (String × Json)) (k : String)
    (v : Json) (hmem : (k, v) ∈ l) :
    v.stringify.data <:+: (JsonFields.stringifyFields (JsonFields.ofList l)).data := by
  induction l with
  | nil => cases hmem
  | cons kv rest ih =>
    rw [List.mem_cons] at hmem
    rcases hmem with h | h
    · cases rest with
      | nil =>
        rw [← h]
        show v.stringify.data <:+:
          ("\"" ++ jsonEscape k ++ "\":" ++ v.stringify).data
        simp only [String.data_append]
        exact (List.suffix_append _ _).isInfix
      | cons kv2 rest2 =>
        rw [← h]
        show v.stringify.data <:+:
          ("\"" ++ jsonEscape k ++ "\":" ++ v.stringify ++ "," ++
            JsonFields.stringifyFields (JsonFields.ofList (kv2 :: rest2))).data
        simp only [String.data_append]
        refine ⟨"\"".data ++ (jsonEscape k).data ++ "\":".data,
          ",".data ++ (JsonFields.stringifyFields (JsonFields.ofList (kv2 :: rest2))).data,
          ?_⟩
        simp [List.append_assoc]
    · have htail := ih h
      cases rest with
      | nil => cases h
      | cons kv2 rest2 =>
        refine htail.trans ?_
        show (JsonFields.stringifyFields (JsonFields.ofList (kv2 :: rest2))).data <:+:
          ("\"" ++ jsonEscape kv.1 ++ "\":" ++ kv.2.stringify ++ "," ++
            JsonFields.stringifyFields (JsonFields.ofList (kv2 :: rest2))).data
        simp only [String.data_append]
        exact (List.suffix_append _ _).isInfix

/-- The serialization of each field value occurs inside the serialization of
the object. -/
theorem stringify_field_infix (l : List (String × Json)) (k : String) (v : Json)
    (hmem : (k, v) ∈ l) :
    v.stringify.data <:+: ((jobj l).stringify).data := by
  have h1 := stringifyFields_field_infix l k v hmem
  show v.stringify.data <:+: ((Json.obj (JsonFields.ofList l)).stringify).data
  rw [Json.stringify]
  simp only [String.data_append]
  exact h1.trans (List.infix_append _ _ _)

/-- `"s"` contains `s`. -/
theorem str_stringify_infix (s : String) (h : s.data.all jsonPlainChar = true) :
    s.data <:+: ((Json.str s).stringify).data := by
  rw [Json.stringify, jsonEscape_plain s h]
  simp only [String.data_append]
  exact List.infix_append _ _ _

/-- Looking up a field whose key does not occur earlier. -/
theorem getField_jobj_middle (pre post : List (String × Json)) (k : String)
    (v : Json) (hpre : ∀ kv ∈ pre, kv.1 ≠ k) :
    (jobj (pre ++ (k, v) :: post)).getField k = some v := by
  induction pre with
  | nil => simp [jobj, JsonFields.ofList, Json.getField, JsonFields.findKey]
  | cons kv rest ih =>
    have hk : kv.1 ≠ k := hpre kv (by simp)
    simp only [jobj, List.cons_append, JsonFields.ofList, Json.getField,
      JsonFields.findKey] at *
    rw [if_neg (by simpa using hk)]
    exact ih fun kv2 h2 => hpre kv2 (by simp [h2])

/-- The data serialization of a node occurs inside the node serialization. -/
theorem stringifyNode_data_infix (n : JNode) :
    n.data.stringify.data <:+: (stringifyNode n).data :=
  stringify_field_infix _ "data" n.data (by simp)

/-- A string with an empty character list is the empty string. -/
theorem strData_eq_nil_iff (s : String) : s.data = [] ↔ s = "" := by
  constructor
  · intro h
    cases s with
    | mk data => simp_all [String.ext_iff]
  · rintro rfl; rfl

/-- Claim C7, amended — for a single-keyword list `[k]` with a nonempty
keyword (as the keyword extractor produces: lowercased nonempty tokens),
a node whose `data.name` lowercases exactly to the keyword scores strictly
higher under `calculateRelevance` than an otherwise-identical node whose
lowercased name only properly contains the keyword.  (The original claim
quantified over every keyword list; `claim_C7_counterexample` shows a
second keyword can reverse the order.) -/
theorem claim_C7_exact_name_beats_substring
    (k : Keyword) (pre post : List (String × Json)) (idv typev tsv nA nB : String)
    (hpre : ∀ kv ∈ pre, kv.1 ≠ "name")
    (hk : k.original ≠ "")
    (hA : sToLower nA = k.original)
    (hAplain : nA.data.all jsonPlainChar = true)
    (hBsub : sContains (sToLower nB) k.original = true)
    (hBne : sToLower nB ≠ k.original) :
    calculateRelevance ⟨idv, typev, jobj (pre ++ ("name", Json.str nB) :: post), tsv⟩ [k] <
    calculateRelevance ⟨idv, typev, jobj (pre ++ ("name", Json.str nA) :: post), tsv⟩ [k] := by
  have hnA : nA ≠ "" := by
    intro he; apply hk; rw [← hA, he]; rfl
  have hnB : nB ≠ "" := by
    intro he
    rw [he] at hBsub
    have := (sContains_iff _ _).1 hBsub
    rw [show (sToLower "").data = [] from rfl, List.infix_nil, strData_eq_nil_iff] at this
    exact hk this
  have hAcontains : sContains
      (sToLower (stringifyNode ⟨idv, typev, jobj (pre ++ ("name", Json.str nA) :: post), tsv⟩))
      k.original = true := by
    have i1 : nA.data <:+: ((Json.str nA).stringify).data := str_stringify_infix nA hAplain
    have i2 : ((Json.str nA).stringify).data <:+:
        ((jobj (pre ++ ("name", Json.str nA) :: post)).stringify).data :=
      stringify_field_infix _ "name" (Json.str nA) (by simp)
    have i3 := stringifyNode_data_infix
      ⟨idv, typev, jobj (pre ++ ("name", Json.str nA) :: post), tsv⟩
    have hinf := (i1.trans i2).trans i3
    have := hinf.map Char.toLower
    rw [← sToLower_data, ← sToLower_data, hA] at this
    exact sContains_of_infix ((congrArg String.data hA) ▸ this)
  have hgA : (jobj (pre ++ ("name", Json.str nA) :: post)).getField "name" = some (.str nA) :=
    getField_jobj_middle pre post "name" (Json.str nA) hpre
  have hgB : (jobj (pre ++ ("name", Json.str nB) :: post)).getField "name" = some (.str nB) :=
    getField_jobj_middle pre post "name" (Json.str nB) hpre
  simp only [calculateRelevance, List.foldl_cons, List.foldl_nil]
  simp only [hgA, hgB, hAcontains]
  have hBemp : nB.isEmpty = false := by
    rw [Bool.eq_false_iff]
    intro he
    exact hnB ((String.isEmpty_iff nB).mp he)
  have hAemp : nA.isEmpty = false := by
    rw [Bool.eq_false_iff]
    intro he
    exact hnA ((String.isEmpty_iff nA).mp he)
  simp only [jobj, Json.truthy, jsTruthy, Bool.true_and, beq_iff_eq, hBsub,
    hA, hBne, if_true, if_false, hBemp, hAemp, Bool.not_false]
  split_ifs <;> omega

/-- Witness for the amended claim C7, at the keyword `foo` and the names
`foo` (exact) versus `xfoo` (proper substring). -/
theorem claim_C7_exact_name_beats_substring_witness :
    calculateRelevance ⟨"node_9", "function", jobj [("name", Json.str "xfoo")], "T"⟩
        [⟨"foo", "foo"⟩] <
    calculateRelevance ⟨"node_9", "function", jobj [("name", Json.str "foo")], "T"⟩
        [⟨"foo", "foo"⟩] :=
  claim_C7_exact_name_beats_substring ⟨"foo", "foo"⟩ [] [] "node_9" "function" "T"
    "foo" "xfoo" (by simp) (by decide) rfl (by decide) rfl (by decide)

/-! ### The budget loop and range merging (claims C2, C3) -/

/-- Total length distributes over snoc. -/
theorem partsTotalLength_append_one (acc : List String) (s : String) :
    partsTotalLength (acc ++ [s]) = partsTotalLength acc + s.length := by
  simp [partsTotalLength]

/-- The budget loop emits a prefix of its input made of whole sections, and
past a lone first section it never exceeds the budget. -/
theorem takeSectionsGo_spec (maxLength : Int) :
    ∀ (sections acc : List String),
      (acc.length ≤ 1 ∨ (partsTotalLength acc : Int) ≤ maxLength) →
      ∃ t, takeSectionsGo maxLength (partsTotalLength acc) acc sections = acc ++ t ∧
        t <+: sections ∧
        ((acc ++ t).length ≤ 1 ∨ (partsTotalLength (acc ++ t) : Int) ≤ maxLength) := by
  intro sections
  induction sections with
  | nil =>
    intro acc hinv
    exact ⟨[], by simp [takeSectionsGo], List.nil_prefix, by simpa using hinv⟩
  | cons s rest ih =>
    intro acc hinv
    have hcast : (partsTotalLength acc : Int) + (s.length : Int) =
        (partsTotalLength (acc ++ [s]) : Int) := by
      rw [partsTotalLength_append_one]; push_cast; ring
    by_cases h2 : acc = []
    · subst h2
      rw [takeSectionsGo, if_neg (by simp)]
      have hinv2 : (([] ++ [s] : List String).length ≤ 1 ∨
          (partsTotalLength ([] ++ [s]) : Int) ≤ maxLength) := by
        left; simp
      rw [show ((partsTotalLength ([] : List String) : Int) + (s.length : Int)) =
        (partsTotalLength ([] ++ [s]) : Int) from hcast]
      obtain ⟨t, ht, hpre, hfin⟩ := ih ([] ++ [s]) hinv2
      exact ⟨s :: t, by simpa using ht, (List.cons_prefix_cons).2 ⟨rfl, hpre⟩,
        by simpa using hfin⟩
    · by_cases h1 : (partsTotalLength acc : Int) + (s.length : Int) > maxLength
      · rw [takeSectionsGo, if_pos (by
          simp only [Bool.and_eq_true, decide_eq_true_eq]
          refine ⟨h1, ?_⟩
          simp [List.isEmpty_iff, h2])]
        exact ⟨[], by simp, List.nil_prefix, by simpa using hinv⟩
      · rw [takeSectionsGo, if_neg (by
          simp only [Bool.and_eq_true, decide_eq_true_eq, not_and]
          intro hcon
          exact absurd hcon h1)]
        have hinv2 : ((acc ++ [s]).length ≤ 1 ∨
            (partsTotalLength (acc ++ [s]) : Int) ≤ maxLength) := by
          right; rw [← hcast]; omega
        rw [hcast]
        obtain ⟨t, ht, hpre, hfin⟩ := ih (acc ++ [s]) hinv2
        refine ⟨s :: t, ?_, (List.cons_prefix_cons).2 ⟨rfl, hpre⟩, ?_⟩
        · rw [ht, List.append_assoc]; rfl
        · rwa [List.append_assoc] at hfin

/-- Claim C2, amended — `buildContext` enforces the character budget only
section-wise and per file: when `includeFullContent=false` and a file's raw
content exceeds `maxCodeLength`, the emitted content is a prefix of the
file's whole merged sections (no section is cut mid-range), and whenever at
least two sections are emitted their summed length stays within
`maxCodeLength`; a lone first section may exceed the budget (see the
counterexample), and `includeFullContent=true` emits whole files, so the
global `maxCodeLength × maxFiles` bound of the original claim fails. -/
theorem claim_C2_budget_sections :
    (∀ (maxLength : Int) (sections : List String),
      takeSectionsWithinBudget maxLength sections <+: sections ∧
      ((takeSectionsWithinBudget maxLength sections).length ≤ 1 ∨
        (partsTotalLength (takeSectionsWithinBudget maxLength sections) : Int) ≤ maxLength)) ∧
    (∀ (fileData : Json) (maxLength : Int) (content : String),
      extractRelevantSections fileData maxLength = .ok content →
      ∃ sections, relevantSectionStrings fileData = .ok sections ∧
        content = joinSep elisionMarker (takeSectionsWithinBudget maxLength sections)) := by
  constructor
  · intro maxLength sections
    obtain ⟨t, ht, hpre, hfin⟩ :=
      takeSectionsGo_spec maxLength sections [] (by left; simp)
    rw [takeSectionsWithinBudget, show (0 : Int) = (partsTotalLength [] : Int) from rfl, ht]
    simpa using ⟨hpre, hfin⟩
  · intro fileData maxLength content h
    rw [extractRelevantSections] at h
    cases hr : relevantSectionStrings fileData with
    | error e => rw [hr] at h; exact absurd h (by simp [Except.bind])
    | ok sections =>
      rw [hr] at h
      have h2 : Except.ok (ε := String)
          (joinSep elisionMarker (takeSectionsWithinBudget maxLength sections)) =
          .ok content := h
      exact ⟨sections, rfl, ((Except.ok.injEq _ _).mp h2).symm⟩

/-- Witness for the amended claim C2 at the concrete wide-line file: the
extraction succeeds and the emitted content is the budget-limited join of
its merged sections. -/
theorem claim_C2_budget_sections_witness :
    ∃ sections,
      relevantSectionStrings (fileNodeData pfWide) = .ok sections ∧
      "function f() \x7b return 1234567; \x7d" =
        joinSep elisionMarker (takeSectionsWithinBudget 5 sections) :=
  claim_C2_budget_sections.2 (fileNodeData pfWide) 5
    "function f() \x7b return 1234567; \x7d" (by rfl)

/-- The llmIntegration merge leaves gaps of more than its one-line slack
between emitted ranges. -/
theorem mergeRangesAux_chain :
    ∀ (rest : List LineRange) (last : LineRange) (done : List LineRange),
      List.Chain' (fun a b => a.stop + 1 < b.start) (done ++ [last]) →
      List.Chain' (fun a b => a.stop + 1 < b.start) (mergeRangesAux last done rest) := by
  intro rest
  induction rest with
  | nil => intro last done h; simpa [mergeRangesAux] using h
  | cons current rs ih =>
    intro last done h
    rw [mergeRangesAux]
    by_cases hc : current.start ≤ last.stop + 1
    · rw [if_pos hc]
      apply ih
      rw [List.chain'_append] at h ⊢
      refine ⟨h.1, List.chain'_singleton _, ?_⟩
      intro x hx y hy
      simp only [List.head?_cons, Option.mem_def, Option.some.injEq] at hy
      have := h.2.2 x hx last (by simp)
      subst hy
      simpa using this
    · rw [if_neg hc]
      apply ih
      rw [List.chain'_append]
      refine ⟨h, List.chain'_singleton _, ?_⟩
      intro x hx y hy
      simp only [List.head?_cons, Option.mem_def, Option.some.injEq] at hy
      rw [List.getLast?_concat] at hx
      simp only [Option.mem_def, Option.some.injEq] at hx
      subst hx
      subst hy
      omega

/-- The githubLoader merge leaves gaps of more than its five-line slack
between emitted ranges. -/
theorem mergeSectionsAux_chain :
    ∀ (rest : List CodeSection) (last : CodeSection) (done : List CodeSection),
      List.Chain' (fun a b => a.stop + 5 < b.start) (done ++ [last]) →
      List.Chain' (fun a b => a.stop + 5 < b.start) (mergeSectionsAux last done rest) := by
  intro rest
  induction rest with
  | nil => intro last done h; simpa [mergeSectionsAux] using h
  | cons current rs ih =>
    intro last done h
    rw [mergeSectionsAux]
    by_cases hc : current.start ≤ last.stop + 5
    · rw [if_pos hc]
      apply ih
      rw [List.chain'_append] at h ⊢
      refine ⟨h.1, List.chain'_singleton _, ?_⟩
      intro x hx y hy
      simp only [List.head?_cons, Option.mem_def, Option.some.injEq] at hy
      have := h.2.2 x hx last (by simp)
      subst hy
      simpa using this
    · rw [if_neg hc]
      apply ih
      rw [List.chain'_append]
      refine ⟨h, List.chain'_singleton _, ?_⟩
      intro x hx y hy
      simp only [List.head?_cons, Option.mem_def, Option.some.injEq] at hy
      rw [List.getLast?_concat] at hx
      simp only [Option.mem_def, Option.some.injEq] at hx
      subst hx
      subst hy
      omega

/-- Claim C3, amended — the context builder's `mergeRanges` (whose caller
sorts) coalesces exactly within a slack of one line, so its emitted ranges
are separated by gaps of more than one line but can be within the claimed
five; the loader's `mergeSections` sorts internally and coalesces within a
slack of five lines, as the claim describes.  On the spec's example both
produce `[(0,10),(20,25)]` (the example does not separate the two slacks). -/
theorem claim_C3_merge_slack_semantics :
    mergeRanges (sortRangesByStart
        [{ start := 0, stop := 5 }, { start := 4, stop := 10 },
         { start := 20, stop := 25 }]) =
      [{ start := 0, stop := 10 }, { start := 20, stop := 25 }] ∧
    mergeSections
        [{ start := 0, stop := 5, matchLine := 2 },
         { start := 4, stop := 10, matchLine := 6 },
         { start := 20, stop := 25, matchLine := 22 }] =
      [{ start := 0, stop := 10, matchLine := 2 },
       { start := 20, stop := 25, matchLine := 22 }] ∧
    mergeRanges (sortRangesByStart [{ start := 0, stop := 5 }, { start := 6, stop := 8 }]) =
      [{ start := 0, stop := 8 }] ∧
    mergeSections
        [{ start := 0, stop := 5, matchLine := 0 }, { start := 9, stop := 12, matchLine := 9 }] =
      [{ start := 0, stop := 12, matchLine := 0 }] ∧
    (∀ ranges, List.Chain' (fun a b => a.stop + 1 < b.start) (mergeRanges ranges)) ∧
    (∀ sections, List.Chain' (fun a b => a.stop + 5 < b.start) (mergeSections sections)) := by
  refine ⟨rfl, rfl, rfl, rfl, ?_, ?_⟩
  · intro ranges
    cases ranges with
    | nil => simp [mergeRanges]
    | cons r rest =>
      rw [mergeRanges]
      exact mergeRangesAux_chain rest r [] (by simp)
  · intro sections
    rw [mergeSections]
    cases hs : sortSectionsByStart sections with
    | nil => simp
    | cons shead srest =>
      exact mergeSectionsAux_chain srest shead [] (by simp)

end CtxGen

namespace CtxGen

theorem except_bind_ok {α β : Type} {E : Except String α} {k : α → Except String β}
    {r : β} (h : (E >>= k) = .ok r) : ∃ a, E = .ok a ∧ k a = .ok r := by
  cases E with
  | error e => cases h
  | ok a => exact ⟨a, rfl, h⟩

theorem gfwc_join (g : KnowledgeGraph) (maxFiles maxCodeLength : Int) (iff_ : Bool)
    (rest : List JNode) (processedPaths : List String)
    (acc' res : List FileContent)
    (hrec : ∀ (acc : List FileContent) (processed : List String) (res : List FileContent),
      (acc.length : Int) < maxFiles →
      gfwcLoop g maxFiles maxCodeLength iff_ rest acc processed = .ok res →
      (res.length : Int) ≤ maxFiles)
    (hlen : (acc'.length : Int) ≤ maxFiles)
    (h : (if (acc'.length : Int) ≥ maxFiles then pure acc'
          else gfwcLoop g maxFiles maxCodeLength iff_ rest acc' processedPaths) = .ok res) :
    (res.length : Int) ≤ maxFiles := by
  split at h
  · cases h; omega
  · exact hrec acc' processedPaths res (by omega) h

theorem gfwcLoop_length_le (g : KnowledgeGraph) (maxFiles maxCodeLength : Int) (iff_ : Bool) :
    ∀ (nodes : List JNode) (acc : List FileContent) (processed : List String)
      (res : List FileContent),
      (acc.length : Int) < maxFiles →
      gfwcLoop g maxFiles maxCodeLength iff_ nodes acc processed = .ok res →
      (res.length : Int) ≤ maxFiles := by
  intro nodes
  induction nodes with
  | nil =>
    intro acc processed res hacc h
    rw [gfwcLoop] at h
    cases h
    omega
  | cons node rest ih =>
    intro acc processed res hacc h
    rw [gfwcLoop] at h
    split at h
    · -- branch 1: a file node with a fresh path
      simp only [] at h
      split at h
      · split at h
        · split at h
          · split at h
            · -- push case, with buildFileContent bind
              obtain ⟨fc, hb, h⟩ := except_bind_ok h
              simp only [bind, Except.bind, pure, Except.pure] at h
              refine gfwc_join g maxFiles maxCodeLength iff_ rest _ (acc ++ [fc]) res ih ?_ h
              simp only [List.length_append, List.length_cons, List.length_nil]
              push_cast
              omega
            · simp only [bind, Except.bind, pure, Except.pure] at h
              exact gfwc_join g maxFiles maxCodeLength iff_ rest _ acc res ih (by omega) h
          · simp only [bind, Except.bind, pure, Except.pure] at h
            exact gfwc_join g maxFiles maxCodeLength iff_ rest _ acc res ih (by omega) h
        · simp only [bind, Except.bind, pure, Except.pure] at h
          exact gfwc_join g maxFiles maxCodeLength iff_ rest _ acc res ih (by omega) h
      · simp only [bind, Except.bind, pure, Except.pure] at h
        exact gfwc_join g maxFiles maxCodeLength iff_ rest _ acc res ih (by omega) h
    · -- branch 2 or skip
      split at h
      · -- branch 2: a node referencing a file
        simp only [] at h
        split at h
        · split at h
          · split at h
            · split at h
              · obtain ⟨fc, hb, h⟩ := except_bind_ok h
                simp only [bind, Except.bind, pure, Except.pure] at h
                refine gfwc_join g maxFiles maxCodeLength iff_ rest _ (acc ++ [fc]) res ih ?_ h
                simp only [List.length_append, List.length_cons, List.length_nil]
                push_cast
                omega
              · simp only [bind, Except.bind, pure, Except.pure] at h
                exact gfwc_join g maxFiles maxCodeLength iff_ rest _ acc res ih (by omega) h
            · simp only [bind, Except.bind, pure, Except.pure] at h
              exact gfwc_join g maxFiles maxCodeLength iff_ rest _ acc res ih (by omega) h
          · simp only [bind, Except.bind, pure, Except.pure] at h
            exact gfwc_join g maxFiles maxCodeLength iff_ rest _ acc res ih (by omega) h
        · simp only [bind, Except.bind, pure, Except.pure] at h
          exact gfwc_join g maxFiles maxCodeLength iff_ rest _ acc res ih (by omega) h
      · exact ih acc processed res hacc h

end CtxGen

namespace CtxGen

theorem insertFileByScoreDesc_length (x : FileContent) (l : List FileContent) :
    (insertFileByScoreDesc x l).length = l.length + 1 := by
  induction l with
  | nil => rfl
  | cons y ys ih =>
    rw [insertFileByScoreDesc]
    split
    · simp
    · simp [ih]

theorem sortFilesByScoreDesc_length (l : List FileContent) :
    (sortFilesByScoreDesc l).length = l.length := by
  induction l with
  | nil => rfl
  | cons x xs ih =>
    show (insertFileByScoreDesc x (sortFilesByScoreDesc xs)).length = xs.length + 1
    rw [insertFileByScoreDesc_length, ih]

theorem findNodesByType_mem (g : KnowledgeGraph) (t : String) (x : JNode)
    (hx : x ∈ g.findNodesByType t) : x.type = t := by
  rw [KnowledgeGraph.findNodesByType, List.mem_filterMap] at hx
  obtain ⟨kv, _, hif⟩ := hx
  split at hif
  · cases hif
    rename_i heq
    exact eq_of_beq heq
  · cases hif

theorem jsSliceTo_sublist (l : List α) (n : Int) : (jsSliceTo l n).Sublist l := by
  rw [jsSliceTo]
  split
  · exact List.take_sublist _ _
  · exact List.take_sublist _ _

theorem jsSliceTo_length_le (l : List α) (n : Int) (hn : 0 ≤ n) :
    (jsSliceTo l n).length ≤ n.toNat := by
  rw [jsSliceTo, if_neg (by omega)]
  simp [List.length_take]

theorem overviewAddAll_spec (l : List JNode) :
    ∀ (st : List JNode × List String),
      ∃ new, (overviewAddAll st l).1 = st.1 ++ new ∧ new.Sublist l := by
  induction l with
  | nil => intro st; exact ⟨[], by simp [overviewAddAll], List.Sublist.refl _⟩
  | cons n rest ih =>
    intro st
    have step : overviewAddAll st (n :: rest) =
        overviewAddAll
          (if !st.2.contains n.id then (st.1 ++ [n], st.2 ++ [n.id]) else st) rest := rfl
    rw [step]
    by_cases hc : (!st.2.contains n.id) = true
    · rw [if_pos hc]
      obtain ⟨new, hnew, hsub⟩ := ih (st.1 ++ [n], st.2 ++ [n.id])
      exact ⟨n :: new, by simpa [List.append_assoc] using hnew,
        List.cons_sublist_cons.2 hsub⟩
    · rw [if_neg hc]
      obtain ⟨new, hnew, hsub⟩ := ih st
      exact ⟨new, hnew, hsub.cons _⟩

theorem overviewAddExports_spec (maxNodes : Int) (l : List JNode) :
    ∀ (st : List JNode × List String),
      ∃ new, (overviewAddExports maxNodes st l).1 = st.1 ++ new ∧ new.Sublist l ∧
        (overviewAddExports maxNodes st l).1.length ≤ max st.1.length maxNodes.toNat := by
  induction l with
  | nil =>
    intro st
    exact ⟨[], by simp [overviewAddExports], List.nil_sublist _, by simp [overviewAddExports]⟩
  | cons n rest ih =>
    intro st
    have step : overviewAddExports maxNodes st (n :: rest) =
        overviewAddExports maxNodes
          (if !st.2.contains n.id && (st.1.length : Int) < maxNodes then
            (st.1 ++ [n], st.2 ++ [n.id]) else st) rest := rfl
    rw [step]
    by_cases hc : (!st.2.contains n.id && decide ((st.1.length : Int) < maxNodes)) = true
    · rw [if_pos hc]
      obtain ⟨new, hnew, hsub, hlen⟩ := ih (st.1 ++ [n], st.2 ++ [n.id])
      rw [Bool.and_eq_true, decide_eq_true_eq] at hc
      refine ⟨n :: new, by simpa [List.append_assoc] using hnew,
        List.cons_sublist_cons.2 hsub, ?_⟩
      refine le_trans hlen ?_
      simp only [List.length_append, List.length_cons, List.length_nil]
      omega
    · rw [if_neg hc]
      obtain ⟨new, hnew, hsub, hlen⟩ := ih st
      exact ⟨new, hnew, hsub.cons _, hlen⟩

end CtxGen

namespace CtxGen

theorem getRepositoryOverview_decomp (g : KnowledgeGraph) (maxNodes : Int) :
    ∃ new1 new2 new3 new4,
      getRepositoryOverview g maxNodes = new1 ++ new2 ++ new3 ++ new4 ∧
      new1.Sublist (jsSliceTo (g.findNodesByType "file") (maxNodes.fdiv 3)) ∧
      new2.Sublist (jsSliceTo (g.findNodesByType "function") (maxNodes.fdiv 3)) ∧
      new3.Sublist (jsSliceTo (g.findNodesByType "class") (maxNodes.fdiv 3)) ∧
      new4.Sublist (g.findNodesByType "export") ∧
      (getRepositoryOverview g maxNodes).length ≤
        max (new1.length + new2.length + new3.length) maxNodes.toNat := by
  rw [getRepositoryOverview]
  obtain ⟨n1, h1, hs1⟩ := overviewAddAll_spec
    (jsSliceTo (g.findNodesByType "file") (maxNodes.fdiv 3)) (([], []) : List JNode × List String)
  obtain ⟨n2, h2, hs2⟩ := overviewAddAll_spec
    (jsSliceTo (g.findNodesByType "function") (maxNodes.fdiv 3))
    (overviewAddAll (([], []) : List JNode × List String)
      (jsSliceTo (g.findNodesByType "file") (maxNodes.fdiv 3)))
  obtain ⟨n3, h3, hs3⟩ := overviewAddAll_spec
    (jsSliceTo (g.findNodesByType "class") (maxNodes.fdiv 3))
    (overviewAddAll (overviewAddAll (([], []) : List JNode × List String)
      (jsSliceTo (g.findNodesByType "file") (maxNodes.fdiv 3)))
      (jsSliceTo (g.findNodesByType "function") (maxNodes.fdiv 3)))
  obtain ⟨n4, h4, hs4, hlen4⟩ := overviewAddExports_spec maxNodes
    (g.findNodesByType "export")
    (overviewAddAll (overviewAddAll (overviewAddAll (([], []) : List JNode × List String)
      (jsSliceTo (g.findNodesByType "file") (maxNodes.fdiv 3)))
      (jsSliceTo (g.findNodesByType "function") (maxNodes.fdiv 3)))
      (jsSliceTo (g.findNodesByType "class") (maxNodes.fdiv 3)))
  refine ⟨n1, n2, n3, n4, ?_, hs1, hs2, hs3, hs4, ?_⟩
  · rw [h4, h3, h2, h1]
    simp [List.append_assoc]
  · have hX : (overviewAddAll (overviewAddAll (overviewAddAll
        (([], []) : List JNode × List String)
        (jsSliceTo (g.findNodesByType "file") (maxNodes.fdiv 3)))
        (jsSliceTo (g.findNodesByType "function") (maxNodes.fdiv 3)))
        (jsSliceTo (g.findNodesByType "class") (maxNodes.fdiv 3))).1.length =
        n1.length + n2.length + n3.length := by
      rw [h3, h2, h1]
      simp only [List.nil_append, List.length_append]
    rw [hX] at hlen4
    exact hlen4

end CtxGen

namespace CtxGen

theorem claim_C10_overview_dispatch :
    (∀ (g : KnowledgeGraph) (query : String) (maxNodes : Int),
      isOverviewQuery query = true →
      selectRelevantNodes g query maxNodes = .ok (getRepositoryOverview g maxNodes)) ∧
    (∀ (g : KnowledgeGraph) (maxNodes : Int), 0 ≤ maxNodes →
      ((getRepositoryOverview g maxNodes).filter fun n => n.type == "file").length
          ≤ (maxNodes.fdiv 3).toNat ∧
      ((getRepositoryOverview g maxNodes).filter fun n => n.type == "function").length
          ≤ (maxNodes.fdiv 3).toNat ∧
      ((getRepositoryOverview g maxNodes).filter fun n => n.type == "class").length
          ≤ (maxNodes.fdiv 3).toNat ∧
      (getRepositoryOverview g maxNodes).length ≤ maxNodes.toNat ∧
      ∀ n ∈ getRepositoryOverview g maxNodes,
        n.type = "file" ∨ n.type = "function" ∨ n.type = "class" ∨ n.type = "export") := by
  constructor
  · intro g query maxNodes hq
    rw [selectRelevantNodes, if_pos hq]
    rfl
  · intro g maxNodes hmn
    obtain ⟨n1, n2, n3, n4, hdec, hs1, hs2, hs3, hs4, hlen⟩ :=
      getRepositoryOverview_decomp g maxNodes
    have hq0 : 0 ≤ maxNodes.fdiv 3 := Int.fdiv_nonneg hmn (by omega)
    have hm1 : ∀ x ∈ n1, x.type = "file" := fun x hx =>
      findNodesByType_mem g "file" x ((jsSliceTo_sublist _ _).subset (hs1.subset hx))
    have hm2 : ∀ x ∈ n2, x.type = "function" := fun x hx =>
      findNodesByType_mem g "function" x ((jsSliceTo_sublist _ _).subset (hs2.subset hx))
    have hm3 : ∀ x ∈ n3, x.type = "class" := fun x hx =>
      findNodesByType_mem g "class" x ((jsSliceTo_sublist _ _).subset (hs3.subset hx))
    have hm4 : ∀ x ∈ n4, x.type = "export" := fun x hx =>
      findNodesByType_mem g "export" x (hs4.subset hx)
    have hn1len : n1.length ≤ (maxNodes.fdiv 3).toNat :=
      le_trans hs1.length_le (jsSliceTo_length_le _ _ hq0)
    have hn2len : n2.length ≤ (maxNodes.fdiv 3).toNat :=
      le_trans hs2.length_le (jsSliceTo_length_le _ _ hq0)
    have hn3len : n3.length ≤ (maxNodes.fdiv 3).toNat :=
      le_trans hs3.length_le (jsSliceTo_length_le _ _ hq0)
    have hfilter : ∀ (t : String) (l : List JNode) (t' : String), t' ≠ t →
        (∀ x ∈ l, x.type = t') → l.filter (fun n => n.type == t) = [] := by
      intro t l t' hne hall
      rw [List.filter_eq_nil_iff]
      intro x hx
      rw [hall x hx]
      simp [hne]
    constructor
    · rw [hdec]
      simp only [List.filter_append,
        hfilter "file" n2 "function" (by decide) hm2,
        hfilter "file" n3 "class" (by decide) hm3,
        hfilter "file" n4 "export" (by decide) hm4,
        List.append_nil, List.length_append]
      exact le_trans (List.filter_sublist _).length_le hn1len
    constructor
    · rw [hdec]
      simp only [List.filter_append,
        hfilter "function" n1 "file" (by decide) hm1,
        hfilter "function" n3 "class" (by decide) hm3,
        hfilter "function" n4 "export" (by decide) hm4,
        List.append_nil, List.nil_append, List.length_append]
      exact le_trans (List.filter_sublist _).length_le hn2len
    constructor
    · rw [hdec]
      simp only [List.filter_append,
        hfilter "class" n1 "file" (by decide) hm1,
        hfilter "class" n2 "function" (by decide) hm2,
        hfilter "class" n4 "export" (by decide) hm4,
        List.append_nil, List.nil_append, List.length_append]
      exact le_trans (List.filter_sublist _).length_le hn3len
    constructor
    · have h3q : 3 * (maxNodes.fdiv 3) ≤ maxNodes := by
        have := Int.fmod_add_fdiv maxNodes 3
        have := Int.fmod_nonneg (a := maxNodes) (b := 3) hmn (by omega)
        omega
      refine le_trans hlen ?_
      have : 3 * (maxNodes.fdiv 3).toNat ≤ maxNodes.toNat := by omega
      omega
    · intro n hn
      rw [hdec] at hn
      simp only [List.mem_append] at hn
      rcases hn with ((h | h) | h) | h
      · exact Or.inl (hm1 n h)
      · exact Or.inr (Or.inl (hm2 n h))
      · exact Or.inr (Or.inr (Or.inl (hm3 n h)))
      · exact Or.inr (Or.inr (Or.inr (hm4 n h)))

end CtxGen

namespace CtxGen

theorem claim_C9_empty_query_two_files :
    ∀ (g : KnowledgeGraph) (opts : ContextOptions) (ctx : BuiltContext),
      opts.maxFiles = 2 →
      getContext g "" opts = .ok ctx →
      ctx.filesWithContent.length ≤ 2 ∧
      ctx.nodes = getRepositoryOverview g opts.maxNodes := by
  intro g opts ctx hmf h
  rw [getContext] at h
  have hsel : selectRelevantNodes g "" opts.maxNodes =
      .ok (getRepositoryOverview g opts.maxNodes) := by
    rw [selectRelevantNodes, if_pos (by rfl)]
    rfl
  rw [hsel] at h
  obtain ⟨nodes, hn, h⟩ := except_bind_ok h
  have hnodes : nodes = getRepositoryOverview g opts.maxNodes := by
    cases hn
    rfl
  obtain ⟨files, hf, h⟩ := except_bind_ok h
  have hctx : ctx = { query := "", nodes := nodes, filesWithContent := files } := by
    cases h
    rfl
  rw [getFilesWithContent] at hf
  obtain ⟨files0, hloop, hf⟩ := except_bind_ok hf
  have hfiles : files = sortFilesByScoreDesc files0 := by
    cases hf
    rfl
  have hbound : (files0.length : Int) ≤ opts.maxFiles :=
    gfwcLoop_length_le g opts.maxFiles opts.maxCodeLength opts.includeFullFiles
      (prioritizeNodesByRelevance nodes) [] [] files0 (by rw [hmf]; simp) hloop
  constructor
  · rw [hctx]
    show files.length ≤ 2
    rw [hfiles, sortFilesByScoreDesc_length]
    omega
  · rw [hctx, hnodes]

end CtxGen

namespace CtxGen

/-- Witness for claim C10 on the populated three-file graph, with a query
that names a specific entity (`alpha`) yet contains `overview`. -/
theorem claim_C10_overview_dispatch_witness :
    selectRelevantNodes gThreeFiles "overview of alpha" 6 =
      .ok (getRepositoryOverview gThreeFiles 6) ∧
    (getRepositoryOverview gThreeFiles 6).length ≤ (6 : Int).toNat :=
  ⟨claim_C10_overview_dispatch.1 gThreeFiles "overview of alpha" 6 (by rfl),
   ((claim_C10_overview_dispatch.2 gThreeFiles 6 (by omega)).2.2.2).1⟩

/-- Witness for claim C9 on the populated three-file graph: the empty query
with `maxFiles = 2` yields at most two files and the overview selection. -/
theorem claim_C9_empty_query_two_files_witness :
    ∃ ctx, getContext gThreeFiles "" { maxFiles := 2 } = .ok ctx ∧
      ctx.filesWithContent.length ≤ 2 ∧
      ctx.nodes = getRepositoryOverview gThreeFiles 50 := by
  have hok : (getContext gThreeFiles "" { maxFiles := 2 }).isOk = true := by rfl
  cases hc : getContext gThreeFiles "" { maxFiles := 2 } with
  | error e => rw [hc] at hok; cases hok
  | ok ctx =>
    have h := claim_C9_empty_query_two_files gThreeFiles { maxFiles := 2 } ctx rfl hc
    exact ⟨ctx, rfl, h.1, h.2⟩

end CtxGen

namespace CtxGen

/-- `contains = false` is non-membership (lists of strings). -/
theorem contains_eq_false_iff (v : List String) (s : String) :
    v.contains s = false ↔ s ∉ v := by
  show List.elem s v = false ↔ s ∉ v
  rw [← Bool.not_eq_true, List.elem_iff]

/-- A successful `jsMapGet` exhibits the stored entry. -/
theorem jsMapGet_some_elim {α : Type} {m : List (String × α)} {k : String} {x : α}
    (h : jsMapGet m k = some x) : ∃ kv ∈ m, kv.1 = k ∧ kv.2 = x := by
  unfold jsMapGet at h
  cases hf : m.find? (fun kv => kv.1 == k) with
  | none => rw [hf] at h; simp at h
  | some kv =>
    rw [hf] at h
    have hk : kv.1 = k := by
      have hp := List.find?_some hf
      exact eq_of_beq hp
    refine ⟨kv, List.mem_of_find?_eq_some hf, hk, ?_⟩
    simpa using h

/-- No `visited` set covers more node keys than the graph has. -/
theorem unvisitedCount_le (g : KnowledgeGraph) (v : List String) :
    unvisitedCount g v ≤ g.nodes.length := by
  unfold unvisitedCount
  calc ((g.nodes.map Prod.fst).filter fun k => !v.contains k).length
      ≤ (g.nodes.map Prod.fst).length := List.length_filter_le _ _
    _ = g.nodes.length := List.length_map _ _

/-- Extending the visited set cannot increase the unvisited count. -/
theorem unvisitedCount_append_le (g : KnowledgeGraph) (w v : List String) :
    unvisitedCount g (w ++ v) ≤ unvisitedCount g v := by
  unfold unvisitedCount
  apply List.Sublist.length_le
  apply List.monotone_filter_right
  intro k hk
  rw [Bool.not_eq_true'] at hk ⊢
  rw [contains_eq_false_iff] at hk ⊢
  intro hm; exact hk (List.mem_append_right w hm)

/-- Marking a fresh node key as visited strictly decreases the unvisited
count — the variant of the JS recursion. -/
theorem unvisitedCount_cons_lt (g : KnowledgeGraph) (v : List String) (s : String)
    (hmem : s ∈ g.nodes.map Prod.fst) (hnv : v.contains s = false) :
    unvisitedCount g (s :: v) < unvisitedCount g v := by
  unfold unvisitedCount
  have hsub : ((g.nodes.map Prod.fst).filter fun k => !(s :: v).contains k).Sublist
      ((g.nodes.map Prod.fst).filter fun k => !v.contains k) := by
    apply List.monotone_filter_right
    intro k hk
    rw [Bool.not_eq_true'] at hk ⊢
    rw [contains_eq_false_iff] at hk ⊢
    intro hm; exact hk (List.mem_cons_of_mem s hm)
  have hne : ((g.nodes.map Prod.fst).filter fun k => !(s :: v).contains k) ≠
      ((g.nodes.map Prod.fst).filter fun k => !v.contains k) := by
    intro he
    have hs2 : s ∈ (g.nodes.map Prod.fst).filter fun k => !v.contains k :=
      List.mem_filter.mpr ⟨hmem, by rw [Bool.not_eq_true', hnv]⟩
    rw [← he] at hs2
    have hbad := (List.mem_filter.mp hs2).2
    have hc : (s :: v).contains s = true := by
      show List.elem s (s :: v) = true
      rw [List.elem_iff]; exact List.mem_cons_self s v
    rw [Bool.not_eq_true', hc] at hbad
    exact Bool.noConfusion hbad
  exact Nat.lt_of_le_of_ne hsub.length_le fun hlen => hne (hsub.eq_of_length hlen)

/-- The traversal only ever extends the visited set (at the head). -/
theorem traverseGraphFuel_visited_mono (g : KnowledgeGraph) :
    ∀ (fuel : Nat) (s : String) (d : Int) (v : List String),
      ∃ w, (g.traverseGraphFuel fuel s d v).2 = w ++ v := by
  intro fuel
  induction fuel with
  | zero => intro s d v; exact ⟨[], rfl⟩
  | succ fuel ih =>
    intro s d v
    simp only [KnowledgeGraph.traverseGraphFuel]
    by_cases hg : v.contains s || d == 0
    · rw [if_pos hg]; exact ⟨[], rfl⟩
    · rw [if_neg hg]
      cases hn : jsMapGet g.nodes s with
      | none => exact ⟨[s], rfl⟩
      | some node =>
        have haux : ∀ (conns : List JEdge) (acc : List JNode × List String),
            (∃ w, acc.2 = w ++ v) →
            ∃ w, (conns.foldl
                (fun acc edge =>
                  let nextNodeId :=
                    if edge.source == s then edge.target else edge.source
                  let r := g.traverseGraphFuel fuel nextNodeId (d - 1) acc.2
                  (acc.1 ++ r.1, r.2)) acc).2 = w ++ v := by
          intro conns
          induction conns with
          | nil => intro acc h; exact h
          | cons e rest ihc =>
            intro acc h
            rw [List.foldl_cons]
            apply ihc
            obtain ⟨w, hw⟩ := h
            obtain ⟨w2, hw2⟩ :=
              ih (if e.source == s then e.target else e.source) (d - 1) acc.2
            refine ⟨w2 ++ w, ?_⟩
            show (g.traverseGraphFuel fuel
              (if e.source == s then e.target else e.source) (d - 1) acc.2).2 =
                (w2 ++ w) ++ v
            rw [hw2, hw, List.append_assoc]
        exact haux _ ([node], s :: v) ⟨[s], rfl⟩

end CtxGen

namespace CtxGen

/-- Any two fuels beyond the unvisited-key count compute the same traversal:
the JS recursion (which has no fuel) is totally defined, and the wrapper's
fuel `g.nodes.length + 1` computes its value. -/
theorem traverseGraphFuel_fuel_irrel (g : KnowledgeGraph) :
    ∀ (fuel₁ fuel₂ : Nat) (s : String) (d : Int) (v : List String),
      unvisitedCount g v < fuel₁ → unvisitedCount g v < fuel₂ →
      g.traverseGraphFuel fuel₁ s d v = g.traverseGraphFuel fuel₂ s d v := by
  intro fuel₁
  induction fuel₁ using Nat.strong_induction_on with
  | _ fuel₁ ih =>
    intro fuel₂ s d v h₁ h₂
    cases fuel₁ with
    | zero => omega
    | succ a =>
      cases fuel₂ with
      | zero => omega
      | succ b =>
        simp only [KnowledgeGraph.traverseGraphFuel]
        by_cases hg : v.contains s || d == 0
        · rw [if_pos hg, if_pos hg]
        · rw [if_neg hg, if_neg hg]
          cases hn : jsMapGet g.nodes s with
          | none => rfl
          | some node =>
            obtain ⟨kv, hkv, hk1, hk2⟩ := jsMapGet_some_elim hn
            have hsmem : s ∈ g.nodes.map Prod.fst :=
              hk1 ▸ List.mem_map_of_mem Prod.fst hkv
            have hnv : v.contains s = false := by
              revert hg; cases v.contains s <;> simp
            have hlt := unvisitedCount_cons_lt g v s hsmem hnv
            have haux : ∀ (conns : List JEdge) (acc : List JNode × List String),
                unvisitedCount g acc.2 < a → unvisitedCount g acc.2 < b →
                conns.foldl
                  (fun acc edge =>
                    let nextNodeId :=
                      if edge.source == s then edge.target else edge.source
                    let r := g.traverseGraphFuel a nextNodeId (d - 1) acc.2
                    (acc.1 ++ r.1, r.2)) acc =
                conns.foldl
                  (fun acc edge =>
                    let nextNodeId :=
                      if edge.source == s then edge.target else edge.source
                    let r := g.traverseGraphFuel b nextNodeId (d - 1) acc.2
                    (acc.1 ++ r.1, r.2)) acc := by
              intro conns
              induction conns with
              | nil => intro acc _ _; rfl
              | cons e rest ihc =>
                intro acc ha hb
                rw [List.foldl_cons, List.foldl_cons]
                have hr : g.traverseGraphFuel a
                    (if e.source == s then e.target else e.source) (d - 1) acc.2 =
                    g.traverseGraphFuel b
                    (if e.source == s then e.target else e.source) (d - 1) acc.2 :=
                  ih a (Nat.lt_succ_self a) b _ _ _ ha hb
                show List.foldl _
                    (acc.1 ++ (g.traverseGraphFuel a
                      (if e.source == s then e.target else e.source) (d - 1) acc.2).1,
                     (g.traverseGraphFuel a
                      (if e.source == s then e.target else e.source) (d - 1) acc.2).2)
                    rest =
                  List.foldl _
                    (acc.1 ++ (g.traverseGraphFuel b
                      (if e.source == s then e.target else e.source) (d - 1) acc.2).1,
                     (g.traverseGraphFuel b
                      (if e.source == s then e.target else e.source) (d - 1) acc.2).2)
                    rest
                rw [hr]
                obtain ⟨w, hw⟩ := traverseGraphFuel_visited_mono g b
                  (if e.source == s then e.target else e.source) (d - 1) acc.2
                have hle : unvisitedCount g ((g.traverseGraphFuel b
                    (if e.source == s then e.target else e.source) (d - 1) acc.2).2) ≤
                    unvisitedCount g acc.2 := by
                  rw [hw]; exact unvisitedCount_append_le g w acc.2
                exact ihc _ (lt_of_le_of_lt hle ha) (lt_of_le_of_lt hle hb)
            exact haux _ ([node], s :: v)
              (lt_of_lt_of_le hlt (Nat.lt_succ_iff.mp h₁))
              (lt_of_lt_of_le hlt (Nat.lt_succ_iff.mp h₂))

end CtxGen

namespace CtxGen

/-- Under the state invariant that each node object is keyed by its own id,
every traversal returns pairwise-distinct node ids, all of them freshly
visited: each returned id is absent from the incoming visited set and
present in the outgoing one. -/
theorem traverseGraphFuel_ids_nodup (g : KnowledgeGraph)
    (hwf : ∀ kv ∈ g.nodes, kv.2.id = kv.1) :
    ∀ (fuel : Nat) (s : String) (d : Int) (v : List String),
      (∀ i ∈ (g.traverseGraphFuel fuel s d v).1.map JNode.id,
          i ∉ v ∧ i ∈ (g.traverseGraphFuel fuel s d v).2) ∧
      ((g.traverseGraphFuel fuel s d v).1.map JNode.id).Nodup := by
  intro fuel
  induction fuel with
  | zero =>
    intro s d v
    refine ⟨fun i hi => absurd hi ?_, ?_⟩ <;>
      simp [KnowledgeGraph.traverseGraphFuel]
  | succ fuel ih =>
    intro s d v
    simp only [KnowledgeGraph.traverseGraphFuel]
    by_cases hg : v.contains s || d == 0
    · rw [if_pos hg]
      exact ⟨fun i hi => absurd hi (by simp), by simp⟩
    · rw [if_neg hg]
      have hnv : v.contains s = false := by
        revert hg; cases v.contains s <;> simp
      have hsv : s ∉ v := (contains_eq_false_iff v s).mp hnv
      cases hn : jsMapGet g.nodes s with
      | none => exact ⟨fun i hi => absurd hi (by simp), by simp⟩
      | some node =>
        obtain ⟨kv, hkv, hk1, hk2⟩ := jsMapGet_some_elim hn
        have hid : node.id = s := by rw [← hk2, hwf kv hkv, hk1]
        have haux : ∀ (conns : List JEdge) (acc : List JNode × List String),
            ((∀ i ∈ acc.1.map JNode.id, i ∉ v ∧ i ∈ acc.2) ∧
              (acc.1.map JNode.id).Nodup ∧ ∃ w, acc.2 = w ++ v) →
            (∀ i ∈ (conns.foldl
                (fun acc edge =>
                  let nextNodeId :=
                    if edge.source == s then edge.target else edge.source
                  let r := g.traverseGraphFuel fuel nextNodeId (d - 1) acc.2
                  (acc.1 ++ r.1, r.2)) acc).1.map JNode.id,
                i ∉ v ∧ i ∈ (conns.foldl
                  (fun acc edge =>
                    let nextNodeId :=
                      if edge.source == s then edge.target else edge.source
                    let r := g.traverseGraphFuel fuel nextNodeId (d - 1) acc.2
                    (acc.1 ++ r.1, r.2)) acc).2) ∧
              ((conns.foldl
                (fun acc edge =>
                  let nextNodeId :=
                    if edge.source == s then edge.target else edge.source
                  let r := g.traverseGraphFuel fuel nextNodeId (d - 1) acc.2
                  (acc.1 ++ r.1, r.2)) acc).1.map JNode.id).Nodup := by
          intro conns
          induction conns with
          | nil => intro acc h; exact ⟨h.1, h.2.1⟩
          | cons e rest ihc =>
            intro acc h
            obtain ⟨hmem, hnd, w, hw⟩ := h
            rw [List.foldl_cons]
            apply ihc
            obtain ⟨hsub, hsubnd⟩ :=
              ih (if e.source == s then e.target else e.source) (d - 1) acc.2
            obtain ⟨w2, hw2⟩ := traverseGraphFuel_visited_mono g fuel
              (if e.source == s then e.target else e.source) (d - 1) acc.2
            refine ⟨?_, ?_, ?_⟩
            · intro i hi
              show i ∉ v ∧ i ∈ (g.traverseGraphFuel fuel
                (if e.source == s then e.target else e.source) (d - 1) acc.2).2
              have hi' : i ∈ acc.1.map JNode.id ++
                  ((g.traverseGraphFuel fuel
                    (if e.source == s then e.target else e.source)
                    (d - 1) acc.2).1.map JNode.id) := by
                rw [← List.map_append]; exact hi
              rcases List.mem_append.mp hi' with hiold | hinew
              · obtain ⟨hiv, hiacc⟩ := hmem i hiold
                refine ⟨hiv, ?_⟩
                rw [hw2]; exact List.mem_append_right w2 hiacc
              · obtain ⟨hiacc, hir⟩ := hsub i hinew
                refine ⟨?_, hir⟩
                intro hiv
                exact hiacc (hw ▸ List.mem_append_right w hiv)
            · show ((acc.1 ++ (g.traverseGraphFuel fuel
                (if e.source == s then e.target else e.source)
                (d - 1) acc.2).1).map JNode.id).Nodup
              rw [List.map_append]
              refine List.Nodup.append hnd hsubnd ?_
              intro i hiold hinew
              exact (hsub i hinew).1 (hmem i hiold).2
            · show ∃ w, (g.traverseGraphFuel fuel
                (if e.source == s then e.target else e.source)
                (d - 1) acc.2).2 = w ++ v
              exact ⟨w2 ++ w, by rw [hw2, hw, List.append_assoc]⟩
        have hres := haux (g.getNodeConnections s) ([node], s :: v)
          ⟨by
            intro i hi
            have : i = s := by
              simpa [hid] using hi
            subst this
            exact ⟨hsv, List.mem_cons_self i v⟩,
           by simp,
           ⟨[s], rfl⟩⟩
        exact hres

end CtxGen

namespace CtxGen

/-- Claim C6 — `traverseGraph` terminates on every graph, cyclic edges
included: any fuel beyond the number of unvisited node keys (in particular
the wrapper's `g.nodes.length + 1`) computes the same fixed point, so the
fuelless JS recursion is total; under the state invariant that each stored
node is keyed by its own id, no node id repeats in the returned sequence;
and `maxDepth = 0` or an already-visited start yields the empty sequence. -/
theorem claim_C6_traversal_terminates (g : KnowledgeGraph) (s : String)
    (d : Int) (v : List String) :
    (∀ fuel, unvisitedCount g v < fuel →
        g.traverseGraphFuel fuel s d v =
          g.traverseGraphFuel (g.nodes.length + 1) s d v) ∧
    ((∀ kv ∈ g.nodes, kv.2.id = kv.1) →
        ((g.traverseGraph s d v).map JNode.id).Nodup) ∧
    (d = 0 → g.traverseGraph s d v = []) ∧
    (v.contains s = true → g.traverseGraph s d v = []) := by
  refine ⟨?_, ?_, ?_, ?_⟩
  · intro fuel hfuel
    exact traverseGraphFuel_fuel_irrel g fuel (g.nodes.length + 1) s d v hfuel
      (Nat.lt_succ_of_le (unvisitedCount_le g v))
  · intro hwf
    exact (traverseGraphFuel_ids_nodup g hwf (g.nodes.length + 1) s d v).2
  · intro hd
    show (g.traverseGraphFuel (g.nodes.length + 1) s d v).1 = []
    simp only [KnowledgeGraph.traverseGraphFuel]
    rw [if_pos (by rw [hd]; simp)]
  · intro hv
    show (g.traverseGraphFuel (g.nodes.length + 1) s d v).1 = []
    simp only [KnowledgeGraph.traverseGraphFuel]
    rw [if_pos (by rw [hv]; simp)]

/-- Witness for C6 at the concrete cyclic three-node graph `gCycle`. -/
theorem claim_C6_traversal_terminates_witness :
    (gCycle.traverseGraphFuel 4 "node_1" 3 [] =
      gCycle.traverseGraphFuel (gCycle.nodes.length + 1) "node_1" 3 []) ∧
    ((gCycle.traverseGraph "node_1" 3 []).map JNode.id).Nodup ∧
    gCycle.traverseGraph "node_1" 0 [] = [] ∧
    gCycle.traverseGraph "node_1" 3 ["node_1"] = [] := by
  refine ⟨?_, ?_, ?_, ?_⟩
  · exact (claim_C6_traversal_terminates gCycle "node_1" 3 []).1 4 (by decide)
  · refine (claim_C6_traversal_terminates gCycle "node_1" 3 []).2.1 ?_
    have hall : gCycle.nodes.all (fun kv => kv.2.id == kv.1) = true := by rfl
    intro kv hkv
    have := List.all_eq_true.mp hall kv hkv
    exact eq_of_beq this
  · exact (claim_C6_traversal_terminates gCycle "node_1" 0 []).2.2.1 rfl
  · exact (claim_C6_traversal_terminates gCycle "node_1" 3 ["node_1"]).2.2.2 (by decide)

end CtxGen

namespace CtxGen

/-- Every character `digitsFuel` emits is `Char.ofNat (48 + m)` for some
digit value `m < 10`. -/
theorem digitsFuel_mem (fuel : Nat) : ∀ (n : Nat) (c : Char),
    c ∈ digitsFuel fuel n → ∃ m, m < 10 ∧ c = Char.ofNat (48 + m) := by
  induction fuel with
  | zero => intro n c hc; simp [digitsFuel] at hc
  | succ fuel ih =>
    intro n c hc
    rw [digitsFuel] at hc
    by_cases hn : n < 10
    · rw [if_pos hn] at hc
      rcases List.mem_singleton.mp hc with rfl
      exact ⟨n, hn, rfl⟩
    · rw [if_neg hn] at hc
      rcases List.mem_append.mp hc with h | h
      · exact ih (n / 10) c h
      · rcases List.mem_singleton.mp h with rfl
        exact ⟨n % 10, Nat.mod_lt n (by omega), rfl⟩

/-- Character facts about the ten digit characters. -/
theorem digitChar_props (m : Nat) (hm : m < 10) :
    isDigitChar (Char.ofNat (48 + m)) = true ∧
    (Char.ofNat (48 + m)).isWhitespace = false ∧
    Char.ofNat (48 + m) ≠ '-' ∧
    Char.ofNat (48 + m) ≠ '+' ∧
    (Char.ofNat (48 + m)).toNat = 48 + m ∧
    (m ≠ 0 → Char.ofNat (48 + m) ≠ '0') := by
  interval_cases m <;> exact ⟨by decide, by decide, by decide, by decide, by decide, fun h => by revert h; decide⟩

/-- `digitsFuel` emits at least one digit when it has fuel. -/
theorem digitsFuel_ne_nil (fuel : Nat) : ∀ (n : Nat), n < fuel →
    digitsFuel fuel n ≠ [] := by
  induction fuel with
  | zero => intro n hn; omega
  | succ fuel ih =>
    intro n hn
    rw [digitsFuel]
    by_cases h10 : n < 10
    · rw [if_pos h10]; exact List.cons_ne_nil _ _
    · rw [if_neg h10]
      intro he
      rcases List.append_eq_nil.mp he with ⟨-, h2⟩
      exact List.cons_ne_nil _ _ h2

/-- For a positive value the leading digit is not `'0'`. -/
theorem digitsFuel_head_ne_zero (fuel : Nat) : ∀ (n : Nat), n < fuel → 1 ≤ n →
    ∀ c, (digitsFuel fuel n).head? = some c → c ≠ '0' := by
  induction fuel with
  | zero => intro n hn; omega
  | succ fuel ih =>
    intro n hn h1 c hc
    rw [digitsFuel] at hc
    by_cases h10 : n < 10
    · rw [if_pos h10] at hc
      rcases Option.some_inj.mp hc with rfl
      exact (digitChar_props n h10).2.2.2.2.2 (by omega)
    · rw [if_neg h10] at hc
      have hne := digitsFuel_ne_nil fuel (n / 10) (by omega)
      cases hd : digitsFuel fuel (n / 10) with
      | nil => exact absurd hd hne
      | cons d ds =>
        rw [hd, List.cons_append, List.head?_cons] at hc
        rcases Option.some_inj.mp hc with rfl
        exact ih (n / 10) (by omega) (by omega) d (by rw [hd]; rfl)

end CtxGen

namespace CtxGen

/-- `takeWhile` keeps a list all of whose elements satisfy the predicate. -/
theorem takeWhile_all {p : Char → Bool} : ∀ (l : List Char),
    (∀ a ∈ l, p a = true) → l.takeWhile p = l := by
  intro l
  induction l with
  | nil => intro _; rfl
  | cons c cs ihc =>
    intro h
    rw [List.takeWhile_cons, h c (List.mem_cons_self c cs), if_pos rfl,
      ihc fun a ha => h a (List.mem_cons_of_mem c ha)]

/-- Digit-list value of `digitsFuel`'s output. -/
theorem digitsVal_digitsFuel (fuel : Nat) : ∀ (n : Nat), n < fuel →
    digitsVal (digitsFuel fuel n) 0 = n := by
  induction fuel with
  | zero => intro n hn; omega
  | succ fuel ih =>
    intro n hn
    rw [digitsFuel]
    by_cases h10 : n < 10
    · rw [if_pos h10]
      show 0 * 10 + ((Char.ofNat (48 + n)).toNat - 48) = n
      rw [(digitChar_props n h10).2.2.2.2.1]
      omega
    · rw [if_neg h10]
      unfold digitsVal
      rw [List.foldl_append]
      have hds := ih (n / 10) (by omega)
      unfold digitsVal at hds
      rw [hds]
      show n / 10 * 10 + ((Char.ofNat (48 + n % 10)).toNat - 48) = n
      rw [(digitChar_props (n % 10) (by omega)).2.2.2.2.1]
      omega

/-- `parseInt(s) || 0` on a nonempty all-digit string (not starting with a
leading zero unless it is the single digit) is the digit-list value. -/
theorem jsParseIntOr0_digits (c : Char) (cs : List Char)
    (hall : ∀ x ∈ c :: cs, ∃ m, m < 10 ∧ x = Char.ofNat (48 + m))
    (hlead : c ≠ '0' ∨ cs = []) :
    jsParseIntOr0 ⟨c :: cs⟩ = (digitsVal (c :: cs) 0 : Int) := by
  obtain ⟨m, hm, hc⟩ := hall c (List.mem_cons_self c cs)
  have hprops := digitChar_props m hm
  have hdrop : List.dropWhile Char.isWhitespace (c :: cs) = c :: cs := by
    rw [List.dropWhile_cons, hc, hprops.2.1]
    simp
  have hdall : ∀ x ∈ c :: cs, isDigitChar x = true := by
    intro x hx
    obtain ⟨mx, hmx, hcx⟩ := hall x hx
    rw [hcx]; exact (digitChar_props mx hmx).1
  have htake : (c :: cs).takeWhile isDigitChar = c :: cs := takeWhile_all _ hdall
  show jsParseIntOr0 ⟨c :: cs⟩ = (digitsVal (c :: cs) 0 : Int)
  rw [jsParseIntOr0]
  simp only [hdrop]
  have hsign : (match c :: cs with
      | '-' :: rest => ((-1 : Int), rest)
      | '+' :: rest => ((1 : Int), rest)
      | rest => ((1 : Int), rest)) = ((1 : Int), c :: cs) := by
    split
    · rename_i heq
      exact absurd (List.head_eq_of_cons_eq heq) (hc ▸ hprops.2.2.1)
    · rename_i heq
      exact absurd (List.head_eq_of_cons_eq heq) (hc ▸ hprops.2.2.2.1)
    · rfl
  rw [hsign]
  split
  · rename_i x rest heq
    have hx : c = '0' := List.head_eq_of_cons_eq heq
    rcases hlead with hl | hl
    · exact absurd hx hl
    · have ht : cs = x :: rest := List.tail_eq_of_cons_eq heq
      rw [hl] at ht
      exact List.noConfusion ht
  · show (if (List.takeWhile isDigitChar (c :: cs)).isEmpty = true then (0 : Int)
        else (1 : Int) * (digitsVal (List.takeWhile isDigitChar (c :: cs)) 0 : Int)) =
      (digitsVal (c :: cs) 0 : Int)
    rw [htake, if_neg (by simp), one_mul]

end CtxGen

namespace CtxGen

/-- `parseInt` inverts the decimal rendering of a positive natural. -/
theorem jsParseIntOr0_natStr (v : Nat) (h1 : 1 ≤ v) :
    jsParseIntOr0 (natStr v) = (v : Int) := by
  obtain ⟨c, cs, hd⟩ :=
    List.exists_cons_of_ne_nil (digitsFuel_ne_nil (v + 1) v (Nat.lt_succ_self v))
  show jsParseIntOr0 ⟨digitsOf v⟩ = (v : Int)
  rw [show digitsOf v = c :: cs from hd]
  rw [jsParseIntOr0_digits c cs
    (fun x hx => digitsFuel_mem (v + 1) v x (by rw [hd]; exact hx))
    (Or.inl (digitsFuel_head_ne_zero (v + 1) v (Nat.lt_succ_self v) h1 c
      (by rw [hd]; rfl)))]
  rw [show c :: cs = digitsOf v from hd.symm, digitsOf,
    digitsVal_digitsFuel (v + 1) v (Nat.lt_succ_self v)]

/-- Replacing a leading pattern occurrence keeps exactly the tail. -/
theorem replaceFirstCs_at_head (p : Char) (ps tail repl : List Char) :
    replaceFirstCs (p :: ps) repl ((p :: ps) ++ tail) = repl ++ tail := by
  rw [List.cons_append, replaceFirstCs]
  rw [if_pos (List.isPrefixOf_iff_prefix.mpr ⟨tail, by rw [List.cons_append]⟩)]
  rw [show (p :: (ps ++ tail)).drop (p :: ps).length = tail from ?_]
  rw [← List.cons_append, List.drop_left]

/-- `("node_" ++ t).replace("node_", "")` is `t`. -/
theorem sReplaceFirst_node (t : String) :
    sReplaceFirst ("node_" ++ t) "node_" "" = t := by
  show String.mk (replaceFirstCs "node_".data "".data ("node_" ++ t).data) = t
  rw [show ("node_" ++ t).data = "node_".data ++ t.data from String.data_append _ _]
  rw [show ("node_".data : List Char) = 'n' :: "ode_".data from rfl]
  rw [replaceFirstCs_at_head]
  rfl

/-- The initial value bounds a `max`-fold from below. -/
theorem foldl_max_ge_init {α : Type} (f : α → Int) :
    ∀ (l : List α) (a : Int), a ≤ l.foldl (fun c y => max c (f y)) a := by
  intro l
  induction l with
  | nil => intro a; exact le_refl a
  | cons y l ihl =>
    intro a
    rw [List.foldl_cons]
    exact le_trans (le_max_left a (f y)) (ihl (max a (f y)))

/-- Every listed value bounds a `max`-fold from below. -/
theorem foldl_max_ge_mem {α : Type} (f : α → Int) :
    ∀ (l : List α) (a : Int) (x : α), x ∈ l →
      f x ≤ l.foldl (fun c y => max c (f y)) a := by
  intro l
  induction l with
  | nil => intro a x hx; exact absurd hx (List.not_mem_nil x)
  | cons y l ihl =>
    intro a x hx
    rw [List.foldl_cons]
    rcases List.mem_cons.mp hx with rfl | hx
    · exact le_trans (le_max_right a (f x)) (foldl_max_ge_init f l (max a (f x)))
    · exact ihl (max a (f y)) x hx

/-- `jsMapHas` over an append. -/
theorem jsMapHas_append {α : Type} (m m' : List (String × α)) (k : String) :
    jsMapHas (m ++ m') k = (jsMapHas m k || jsMapHas m' k) :=
  List.any_append

/-- `jsMapHas` is key membership. -/
theorem jsMapHas_eq_false_iff {α : Type} (m : List (String × α)) (k : String) :
    jsMapHas m k = false ↔ k ∉ m.map Prod.fst := by
  unfold jsMapHas
  rw [← Bool.not_eq_true, List.any_eq_true]
  constructor
  · intro h hk
    obtain ⟨kv, hkv, hfst⟩ := List.mem_map.mp hk
    exact h ⟨kv, hkv, by rw [hfst] at *; exact beq_self_eq_true k⟩
  · rintro h ⟨kv, hkv, hbeq⟩
    exact h (eq_of_beq hbeq ▸ List.mem_map_of_mem Prod.fst hkv)

/-- Setting an absent key appends the binding. -/
theorem jsMapSet_of_not_has {α : Type} :
    ∀ (m : List (String × α)) (k : String) (v : α), jsMapHas m k = false →
      jsMapSet m k v = m ++ [(k, v)] := by
  intro m
  induction m with
  | nil => intro k v _; rfl
  | cons kv m ihm =>
    intro k v h
    rw [jsMapSet]
    have hh : (kv.1 == k) = false := by
      revert h; unfold jsMapHas; rw [List.any_cons]
      cases kv.1 == k <;> simp
    rw [if_neg (by rw [hh]; exact Bool.false_ne_true), List.cons_append,
      ihm k v (by revert h; unfold jsMapHas; rw [List.any_cons, hh]; simp)]

/-- The Boolean distinctness test is `Nodup`. -/
theorem listNodupBool_iff : ∀ (l : List String),
    listNodupBool l = true ↔ l.Nodup := by
  intro l
  induction l with
  | nil => simp [listNodupBool]
  | cons x rest ihl =>
    rw [listNodupBool, Bool.and_eq_true, List.nodup_cons, ihl,
      Bool.not_eq_true', contains_eq_false_iff]

end CtxGen

namespace CtxGen

/-- Re-inserting nodes keyed by their own ids into a disjoint map appends
them in order. -/
theorem rebuild_nodes : ∀ (l m : List (String × JNode)),
    (∀ kv ∈ l, kv.2.id = kv.1) → (l.map Prod.fst).Nodup →
    (∀ kv ∈ l, jsMapHas m kv.1 = false) →
    l.foldl (fun m kv => jsMapSet m kv.2.id kv.2) m = m ++ l := by
  intro l
  induction l with
  | nil => intro m _ _ _; rw [List.foldl_nil, List.append_nil]
  | cons kv l ihl =>
    intro m hid hnd hdisj
    rw [List.foldl_cons, hid kv (List.mem_cons_self kv l),
      jsMapSet_of_not_has m kv.1 kv.2 (hdisj kv (List.mem_cons_self kv l))]
    rw [List.map_cons, List.nodup_cons] at hnd
    have hdisj' : ∀ x ∈ l, jsMapHas (m ++ [kv]) x.1 = false := by
      intro x hx
      rw [jsMapHas_append, Bool.or_eq_false_iff]
      refine ⟨hdisj x (List.mem_cons_of_mem kv hx), ?_⟩
      rw [jsMapHas_eq_false_iff]
      intro hmem
      have hx1 : x.1 = kv.1 := by simpa using hmem
      exact hnd.1 (hx1 ▸ List.mem_map_of_mem Prod.fst hx)
    rw [ihl (m ++ [kv]) (fun x hx => hid x (List.mem_cons_of_mem kv hx)) hnd.2 hdisj',
      List.append_assoc, List.singleton_append]

/-- Re-inserting exported edge objects keyed by their own ids into a
disjoint map appends their map entries in order. -/
theorem rebuild_edges : ∀ (es : List JEdge) (m : List (String × EdgeEntry)),
    ((es.map JEdge.id).Nodup) → (∀ e ∈ es, jsMapHas m e.id = false) →
    es.foldl (fun m e => jsMapSet m e.id (.edgeObj e)) m =
      m ++ es.map fun e => (e.id, EdgeEntry.edgeObj e) := by
  intro es
  induction es with
  | nil => intro m _ _; rw [List.foldl_nil, List.map_nil, List.append_nil]
  | cons e es ihe =>
    intro m hnd hdisj
    rw [List.foldl_cons,
      jsMapSet_of_not_has m e.id (.edgeObj e) (hdisj e (List.mem_cons_self e es))]
    rw [List.map_cons, List.nodup_cons] at hnd
    have hdisj' : ∀ x ∈ es, jsMapHas (m ++ [(e.id, EdgeEntry.edgeObj e)]) x.id = false := by
      intro x hx
      rw [jsMapHas_append, Bool.or_eq_false_iff]
      refine ⟨hdisj x (List.mem_cons_of_mem e hx), ?_⟩
      rw [jsMapHas_eq_false_iff]
      intro hmem
      have hx1 : x.id = e.id := by simpa using hmem
      exact hnd.1 (hx1 ▸ List.mem_map_of_mem JEdge.id hx)
    rw [ihe (m ++ [(e.id, EdgeEntry.edgeObj e)]) hnd.2 hdisj',
      List.map_cons, List.append_assoc, List.singleton_append]

/-- The node-import fold componentwise. -/
theorem nodesFold_proj : ∀ (vs : List JNode) (g : KnowledgeGraph),
    vs.foldl
      (fun g node =>
        { g with
          nodes := jsMapSet g.nodes node.id node,
          nodeIdCounter :=
            max g.nodeIdCounter
              (jsParseIntOr0 (sReplaceFirst node.id "node_" "")) }) g =
    { g with
      nodes := vs.foldl (fun m node => jsMapSet m node.id node) g.nodes,
      nodeIdCounter := vs.foldl
        (fun c node =>
          max c (jsParseIntOr0 (sReplaceFirst node.id "node_" "")))
        g.nodeIdCounter } := by
  intro vs
  induction vs with
  | nil => intro g; rfl
  | cons v vs ihv =>
    intro g
    rw [List.foldl_cons, List.foldl_cons, List.foldl_cons, ihv]

/-- The edge-import fold componentwise. -/
theorem edgesFold_proj : ∀ (es : List JEdge) (g : KnowledgeGraph),
    es.foldl
      (fun g edge =>
        { g with
          edges := jsMapSet g.edges edge.id (.edgeObj edge),
          edgeIdCounter :=
            max g.edgeIdCounter
              (jsParseIntOr0 (sReplaceFirst edge.id "edge_" "")) }) g =
    { g with
      edges := es.foldl (fun m e => jsMapSet m e.id (.edgeObj e)) g.edges,
      edgeIdCounter := es.foldl
        (fun c e =>
          max c (jsParseIntOr0 (sReplaceFirst e.id "edge_" "")))
        g.edgeIdCounter } := by
  intro es
  induction es with
  | nil => intro g; rfl
  | cons e es ihe =>
    intro g
    rw [List.foldl_cons, List.foldl_cons, List.foldl_cons, ihe]

/-- `import(data)` depends only on the imported snapshot: the receiving
state is fully replaced. -/
theorem importData_components (g : KnowledgeGraph) (d : KnowledgeGraph.ExportedGraph) :
    g.importData d =
    { nodes := d.nodes.foldl (fun m node => jsMapSet m node.id node) [],
      edges := d.edges.foldl (fun m e => jsMapSet m e.id (.edgeObj e)) [],
      repositories := d.repositories.foldl (fun m kv => jsMapSet m kv.1 kv.2) [],
      nodeIdCounter := d.nodes.foldl
        (fun c node =>
          max c (jsParseIntOr0 (sReplaceFirst node.id "node_" ""))) 0,
      edgeIdCounter := d.edges.foldl
        (fun c e =>
          max c (jsParseIntOr0 (sReplaceFirst e.id "edge_" ""))) 0 } := by
  simp only [KnowledgeGraph.importData, KnowledgeGraph.clear]
  rw [nodesFold_proj, edgesFold_proj]
  rfl

end CtxGen

namespace CtxGen

/-- Under the edge half of the state invariant, pairing each exported edge
object back with its id reproduces the edge-object entries of the map. -/
theorem export_edges_pairs : ∀ (l : List (String × EdgeEntry)),
    (∀ kv ∈ l, match kv.2 with | .edgeObj e => e.id = kv.1 | .adjArr _ => True) →
    ((l.filterMap fun kv =>
        match kv.2 with | .edgeObj e => some e | .adjArr _ => none).map
      fun e => (e.id, EdgeEntry.edgeObj e)) =
    l.filter fun kv =>
      match kv.2 with | .edgeObj _ => true | .adjArr _ => false := by
  intro l
  induction l with
  | nil => intro _; rfl
  | cons kv l ihl =>
    intro h
    have hkv := h kv (List.mem_cons_self kv l)
    cases he : kv.2 with
    | edgeObj e =>
      rw [he] at hkv
      have hhead : (e.id, EdgeEntry.edgeObj e) = kv := by rw [hkv, ← he]
      simp only [List.filterMap_cons, List.filter_cons, he]
      rw [List.map_cons, hhead, ihl fun x hx => h x (List.mem_cons_of_mem kv hx),
        if_pos trivial]
    | adjArr es =>
      simp only [List.filterMap_cons, List.filter_cons, he]
      exact ihl fun x hx => h x (List.mem_cons_of_mem kv hx)

/-- `import(export())` reproduces the node map exactly. -/
theorem importExport_nodes (g : KnowledgeGraph) (hwf : wellFormedState g = true) :
    (g.importData g.exportData).nodes = g.nodes := by
  rw [wellFormedState, Bool.and_eq_true, Bool.and_eq_true, Bool.and_eq_true] at hwf
  obtain ⟨⟨⟨hn1, hn2⟩, he1⟩, he2⟩ := hwf
  have hid : ∀ kv ∈ g.nodes, kv.2.id = kv.1 := fun kv hkv =>
    eq_of_beq (List.all_eq_true.mp hn2 kv hkv)
  rw [importData_components]
  show (g.nodes.map Prod.snd).foldl (fun m node => jsMapSet m node.id node) [] = g.nodes
  rw [List.foldl_map]
  rw [rebuild_nodes g.nodes [] hid ((listNodupBool_iff _).mp hn1) (fun kv _ => rfl)]
  rw [List.nil_append]

/-- `import(export())` reproduces exactly the edge-object entries of the
edges map (the adjacency arrays are dropped by `export`). -/
theorem importExport_edges (g : KnowledgeGraph) (hwf : wellFormedState g = true) :
    (g.importData g.exportData).edges =
      g.edges.filter fun kv =>
        match kv.2 with | .edgeObj _ => true | .adjArr _ => false := by
  rw [wellFormedState, Bool.and_eq_true, Bool.and_eq_true, Bool.and_eq_true] at hwf
  obtain ⟨⟨⟨hn1, hn2⟩, he1⟩, he2⟩ := hwf
  have hcond : ∀ kv ∈ g.edges,
      match kv.2 with | .edgeObj e => e.id = kv.1 | .adjArr _ => True := by
    intro kv hkv
    have hb := List.all_eq_true.mp he2 kv hkv
    revert hb
    cases kv.2 with
    | edgeObj e => intro hb; exact eq_of_beq hb
    | adjArr es => intro _; trivial
  have hpairs := export_edges_pairs g.edges hcond
  have hcast : g.exportData.edges.map JEdge.id =
      (g.edges.filter fun kv =>
        match kv.2 with | .edgeObj _ => true | .adjArr _ => false).map Prod.fst := by
    have hmf := congrArg (List.map Prod.fst) hpairs
    rw [List.map_map] at hmf
    exact hmf
  have hids : (g.exportData.edges.map JEdge.id).Nodup := by
    rw [hcast]
    exact List.Nodup.sublist ((List.filter_sublist _).map Prod.fst)
      ((listNodupBool_iff _).mp he1)
  rw [importData_components]
  show g.exportData.edges.foldl (fun m e => jsMapSet m e.id (.edgeObj e)) [] =
    g.edges.filter fun kv =>
      match kv.2 with | .edgeObj _ => true | .adjArr _ => false
  rw [rebuild_edges g.exportData.edges [] hids (fun e _ => rfl), List.nil_append]
  exact hpairs

end CtxGen

namespace CtxGen

/-- After `import(export())` the restored node-id counter dominates the
parsed numeric part of every node key, so every later generated id
(`node_${counter + 1 + k}`) misses the node map. -/
theorem importExport_no_collision (g : KnowledgeGraph)
    (hwf : wellFormedState g = true) : ∀ k : Nat,
    jsMapHas (g.importData g.exportData).nodes
      ("node_" ++ intStr ((g.importData g.exportData).nodeIdCounter + 1 + (k : Int))) =
      false := by
  intro k
  have hwf' := hwf
  rw [wellFormedState, Bool.and_eq_true, Bool.and_eq_true, Bool.and_eq_true] at hwf'
  obtain ⟨⟨⟨hn1, hn2⟩, he1⟩, he2⟩ := hwf'
  have hid : ∀ kv ∈ g.nodes, kv.2.id = kv.1 := fun kv hkv =>
    eq_of_beq (List.all_eq_true.mp hn2 kv hkv)
  have hcounter : (g.importData g.exportData).nodeIdCounter =
      (g.nodes.map Prod.snd).foldl
        (fun c node =>
          max c (jsParseIntOr0 (sReplaceFirst node.id "node_" ""))) 0 := by
    rw [importData_components]
    rfl
  have hge0 : (0 : Int) ≤ (g.importData g.exportData).nodeIdCounter := by
    rw [hcounter]
    exact foldl_max_ge_init
      (fun node : JNode => jsParseIntOr0 (sReplaceFirst node.id "node_" "")) _ 0
  rw [importExport_nodes g hwf, jsMapHas_eq_false_iff]
  intro hmem
  obtain ⟨kv, hkv, hfst⟩ := List.mem_map.mp hmem
  have hbound : jsParseIntOr0 (sReplaceFirst kv.2.id "node_" "") ≤
      (g.importData g.exportData).nodeIdCounter := by
    rw [hcounter]
    exact foldl_max_ge_mem
      (fun node : JNode => jsParseIntOr0 (sReplaceFirst node.id "node_" ""))
      (g.nodes.map Prod.snd) 0 kv.2 (List.mem_map_of_mem Prod.snd hkv)
  have hi0 : ¬ ((g.importData g.exportData).nodeIdCounter + 1 + (k : Int) < 0) := by
    omega
  have hparse : jsParseIntOr0 (sReplaceFirst kv.2.id "node_" "") =
      (g.importData g.exportData).nodeIdCounter + 1 + (k : Int) := by
    rw [hid kv hkv, hfst, intStr, if_neg hi0, sReplaceFirst_node,
      jsParseIntOr0_natStr _ (by omega)]
    omega
  omega

/-- Claim C5 — `import(export())` fully replaces the receiving state (the
result of `import` depends only on the snapshot), and on every graph
satisfying the state invariant (keys unique, objects keyed by their own
ids — true of all API-built states) it reproduces the node count, the edge
count and every `findNodesByType` result, and node ids generated after
the import (`node_${counter + 1 + k}`) never collide with restored ids. -/
theorem claim_C5_export_import_roundtrip (g : KnowledgeGraph)
    (hwf : wellFormedState g = true) :
    (∀ d : KnowledgeGraph.ExportedGraph, g.importData d = emptyGraph.importData d) ∧
    (g.importData g.exportData).getNodeCount = g.getNodeCount ∧
    (g.importData g.exportData).getEdgeCount = g.getEdgeCount ∧
    (∀ t, (g.importData g.exportData).findNodesByType t = g.findNodesByType t) ∧
    (∀ k : Nat, jsMapHas (g.importData g.exportData).nodes
        ("node_" ++ intStr
          ((g.importData g.exportData).nodeIdCounter + 1 + (k : Int))) = false) := by
  refine ⟨?_, ?_, ?_, ?_, importExport_no_collision g hwf⟩
  · intro d
    rw [importData_components, importData_components]
  · show (g.importData g.exportData).nodes.length = g.nodes.length
    rw [importExport_nodes g hwf]
  · show ((g.importData g.exportData).edges.filter fun kv =>
        match kv.2 with | .edgeObj _ => true | .adjArr _ => false).length =
      (g.edges.filter fun kv =>
        match kv.2 with | .edgeObj _ => true | .adjArr _ => false).length
    rw [importExport_edges g hwf,
      List.filter_eq_self.mpr fun a ha => (List.mem_filter.mp ha).2]
  · intro t
    show (g.importData g.exportData).nodes.filterMap _ = g.nodes.filterMap _
    rw [importExport_nodes g hwf]

/-- Witness for C5 at the populated one-file graph `gLogin`. -/
theorem claim_C5_export_import_roundtrip_witness :
    (gLogin.importData gLogin.exportData).getNodeCount = gLogin.getNodeCount ∧
    (gLogin.importData gLogin.exportData).getEdgeCount = gLogin.getEdgeCount ∧
    (gLogin.importData gLogin.exportData).findNodesByType "function" =
      gLogin.findNodesByType "function" ∧
    jsMapHas (gLogin.importData gLogin.exportData).nodes
      ("node_" ++ intStr
        ((gLogin.importData gLogin.exportData).nodeIdCounter + 1 + ((0 : Nat) : Int))) =
      false := by
  have h := claim_C5_export_import_roundtrip gLogin (by rfl)
  exact ⟨h.2.1, h.2.2.1, h.2.2.2.1 "function", h.2.2.2.2 0⟩

end CtxGen

namespace CtxGen

/-- Pointwise-equal predicates give equal `all`. -/
theorem all_eq_of_mem_eq {α : Type} : ∀ (l : List α) (f g : α → Bool),
    (∀ x ∈ l, f x = g x) → l.all f = l.all g := by
  intro l
  induction l with
  | nil => intro f g _; rfl
  | cons x l ihl =>
    intro f g h
    rw [List.all_cons, List.all_cons, h x (List.mem_cons_self x l),
      ihl f g fun y hy => h y (List.mem_cons_of_mem x hy)]

/-- A word character is not a regex metacharacter and stays inside the
modelled fragment. -/
theorem wordChar_not_special (c : Char) (h : wordChar c = true) :
    (c == '(') = false ∧ (c == '[') = false ∧ regexFragmentChar c = true ∧
    (c == '.') = false := by
  refine ⟨?_, ?_, ?_, ?_⟩
  · cases hc : c == '(' with
    | false => rfl
    | true => rw [eq_of_beq hc] at h; exact absurd h (by decide)
  · cases hc : c == '[' with
    | false => rfl
    | true => rw [eq_of_beq hc] at h; exact absurd h (by decide)
  · rw [regexFragmentChar, h]; rfl
  · cases hc : c == '.' with
    | false => rfl
    | true => rw [eq_of_beq hc] at h; exact absurd h (by decide)

/-- A query made of word characters never breaks the regex constructor. -/
theorem regexConstructThrows_of_wordChars (q : String)
    (h : q.data.all wordChar = true) : regexConstructThrows q = false := by
  have hpar : q.data.contains '(' = false := by
    cases hc : q.data.contains '(' with
    | false => rfl
    | true =>
      have hm : '(' ∈ q.data := by rw [← List.elem_iff]; exact hc
      exact absurd (List.all_eq_true.mp h '(' hm) (by decide)
  have hbr : q.data.contains '[' = false := by
    cases hc : q.data.contains '[' with
    | false => rfl
    | true =>
      have hm : '[' ∈ q.data := by rw [← List.elem_iff]; exact hc
      exact absurd (List.all_eq_true.mp h '[' hm) (by decide)
  rw [regexConstructThrows, hpar, hbr]
  rfl

/-- On word-character patterns the regex matcher is the literal matcher. -/
theorem matchesHere_eq_literal (pat : List Char) (hpat : pat.all wordChar = true)
    (prev : Option Char) (hay : List Char) :
    matchesHere pat prev hay = literalMatchesAt pat prev hay := by
  rw [matchesHere, literalMatchesAt]
  rw [all_eq_of_mem_eq (pat.zip hay)
    (fun pc => patCharMatches pc.1 pc.2) (fun pc => pc.1 == pc.2) ?_]
  intro pc hpc
  show patCharMatches pc.1 pc.2 = (pc.1 == pc.2)
  have hw : wordChar pc.1 = true :=
    List.all_eq_true.mp hpat pc.1 (List.of_mem_zip hpc).1
  rw [patCharMatches, (wordChar_not_special pc.1 hw).2.2.2, Bool.false_or]

/-- A charwise zip match of full pattern length pins the pattern as a
prefix. -/
theorem pat_prefix_of_zip_all : ∀ (pat hay : List Char),
    pat.length ≤ hay.length →
    ((pat.zip hay).all fun pc => pc.1 == pc.2) = true →
    pat <+: hay := by
  intro pat
  induction pat with
  | nil => intro hay _ _; exact List.nil_prefix
  | cons p ps ihp =>
    intro hay hlen hall
    cases hay with
    | nil => simp at hlen
    | cons c cs =>
      rw [List.zip_cons_cons, List.all_cons, Bool.and_eq_true] at hall
      have hpc : p = c := eq_of_beq hall.1
      rw [hpc]
      exact List.cons_prefix_cons.mpr
        ⟨rfl, ihp cs (by simpa using hlen) hall.2⟩

/-- No literal whole-word occurrence without substring containment. -/
theorem posCount_zero_of_no_occurrence (pat : List Char) :
    ∀ (hay : List Char) (prev : Option Char), ¬ pat <:+: hay →
      posCount pat prev hay = 0 := by
  intro hay
  induction hay with
  | nil => intro prev _; rfl
  | cons c rest ihh =>
    intro prev hinf
    rw [posCount]
    have hm : literalMatchesAt pat prev (c :: rest) = false := by
      cases hl : literalMatchesAt pat prev (c :: rest) with
      | false => rfl
      | true =>
        rw [literalMatchesAt, Bool.and_eq_true, Bool.and_eq_true,
          Bool.and_eq_true] at hl
        obtain ⟨⟨⟨hlen, hb1⟩, hzip⟩, hb2⟩ := hl
        exact absurd (pat_prefix_of_zip_all pat (c :: rest)
          (of_decide_eq_true hlen) hzip).isInfix hinf
    rw [hm, if_neg Bool.false_ne_true, Nat.zero_add]
    exact ihh (some c) fun hi =>
      hinf (hi.trans (List.suffix_cons c rest).isInfix)

end CtxGen

namespace CtxGen

/-- Inside a span of word characters there is no whole-word match start:
the scan may skip a matched span without losing occurrences. -/
theorem posCount_wordspan (pat : List Char) (hne : pat ≠ []) :
    ∀ (span' tailL : List Char) (c : Char), wordChar c = true →
      span'.all wordChar = true →
      posCount pat (some c) (span' ++ tailL) =
        posCount pat (c :: span').getLast? tailL := by
  intro span'
  induction span' with
  | nil => intro tailL c _ _; rfl
  | cons c2 s2 ihs =>
    intro tailL c hc hall
    rw [List.all_cons, Bool.and_eq_true] at hall
    obtain ⟨p, ps, rfl⟩ : ∃ p ps, pat = p :: ps := by
      cases pat with
      | nil => exact absurd rfl hne
      | cons p ps => exact ⟨p, ps, rfl⟩
    rw [List.cons_append, posCount]
    have hb : isWordBoundary (some c)
        ((c2 :: (s2 ++ tailL)).take (p :: ps).length).head? = false := by
      rw [List.length_cons, List.take_succ_cons, List.head?_cons,
        isWordBoundary, wordAt, wordAt, hc, hall.1]
      rfl
    rw [literalMatchesAt, hb, Bool.and_false, Bool.false_and, Bool.false_and,
      if_neg Bool.false_ne_true, Nat.zero_add,
      ihs tailL c2 hall.1 hall.2, List.getLast?_cons_cons]

/-- For nonempty word-character patterns the fueled global scan counts
exactly the whole-word occurrence positions. -/
theorem scanCount_eq_posCount (pat : List Char) (hpat : pat.all wordChar = true)
    (hne : pat ≠ []) :
    ∀ (fuel : Nat) (hay : List Char) (prev : Option Char), hay.length ≤ fuel →
      scanCountFuel pat fuel prev hay = posCount pat prev hay := by
  intro fuel
  induction fuel with
  | zero =>
    intro hay prev hlen
    rw [List.length_eq_zero.mp (Nat.le_zero.mp hlen)]
    rfl
  | succ fuel ih =>
    intro hay prev hlen
    cases hay with
    | nil => rfl
    | cons c rest =>
      rw [scanCountFuel, posCount, matchesHere_eq_literal pat hpat]
      by_cases hm : literalMatchesAt pat prev (c :: rest) = true
      · rw [if_pos hm, if_pos hm]
        have hm' := hm
        rw [literalMatchesAt, Bool.and_eq_true, Bool.and_eq_true,
          Bool.and_eq_true] at hm'
        obtain ⟨⟨⟨hlenp, hb1⟩, hzip⟩, hb2⟩ := hm'
        have hpre : pat <+: c :: rest :=
          pat_prefix_of_zip_all pat (c :: rest) (of_decide_eq_true hlenp) hzip
        obtain ⟨t, ht⟩ := hpre
        have htake : (c :: rest).take pat.length = pat := by
          rw [← ht, List.take_left]
        have hdrop : (c :: rest).drop pat.length = t := by
          rw [← ht, List.drop_left]
        have hlt : ((c :: rest).drop pat.length).length ≤ fuel := by
          rw [List.length_drop]
          have hp1 : 1 ≤ pat.length := by
            cases pat with
            | nil => exact absurd rfl hne
            | cons p ps => simp
          simp only [List.length_cons] at hlen ⊢
          omega
        rw [ih _ _ hlt, htake, hdrop]
        obtain ⟨p, ps, rfl⟩ : ∃ p ps, pat = p :: ps := by
          cases pat with
          | nil => exact absurd rfl hne
          | cons p ps => exact ⟨p, ps, rfl⟩
        rw [List.cons_append] at ht
        injection ht with h1 h2
        rw [List.all_cons, Bool.and_eq_true] at hpat
        rw [← h2, ← h1,
          posCount_wordspan (p :: ps) hne ps t p hpat.1 hpat.2]
      · rw [if_neg hm, if_neg hm, Nat.zero_add]
        exact ih rest (some c) (by simpa using hlen)

end CtxGen

namespace CtxGen

open KnowledgeGraph in
/-- On a truthy node and a nonempty all-word-character lowercased query the
scored relevance succeeds and equals the spec formula (with the whole-word
count taken literally). -/
theorem searchRelevance_spec (qL : String) (hq : qL.data.all wordChar = true)
    (hne : qL.data ≠ []) (node : JNode) (ht : node.data.truthy = true) :
    searchRelevance qL node = .ok (specRelevance qL node) := by
  have hfrag : qL.data.all regexFragmentChar = true :=
    List.all_eq_true.mpr fun c hcq =>
      (wordChar_not_special c (List.all_eq_true.mp hq c hcq)).2.2.1
  have hemp : qL.data.isEmpty = false := by
    cases hd : qL.data with
    | nil => exact absurd hd hne
    | cons c cs => rfl
  rw [searchRelevance, specRelevance, if_pos ht]
  by_cases hc : sContains (sToLower node.data.stringify) qL = true
  · rw [if_pos hc, if_pos hc]
    rw [jsWordBoundedRegexCount, regexConstructThrows_of_wordChars qL hq,
      if_neg Bool.false_ne_true, if_pos hfrag, hemp, if_neg Bool.false_ne_true]
    show Except.ok _ = _
    rw [scanCount_eq_posCount qL.data hq hne _ _ none (le_refl _)]
    show Except.ok _ = _
    rw [show (if sContains node.type qL then 2 else 0) + 1 +
        posCount qL.data none (sToLower node.data.stringify).data * 3 =
      (if sContains node.type qL then 2 else 0) + 1 +
        3 * specWordOccurrences qL (sToLower node.data.stringify) from by
      rw [specWordOccurrences]; omega]
  · rw [if_neg hc]
    have h1 : (if sContains (sToLower node.data.stringify) qL = true
        then (1 : Nat) else 0) = 0 := if_neg hc
    have hz : specWordOccurrences qL (sToLower node.data.stringify) = 0 := by
      rw [specWordOccurrences]
      apply posCount_zero_of_no_occurrence
      intro hinf
      rw [Bool.not_eq_true] at hc
      rw [(sContains_iff _ _).mpr hinf] at hc
      exact Bool.noConfusion hc
    rw [hz, h1]
    show Except.ok _ = _
    rw [show (if sContains node.type qL then (2 : Nat) else 0) + 0 + 3 * 0 =
      (if sContains node.type qL then (2 : Nat) else 0) from by omega]

open KnowledgeGraph in
/-- The scoring fold of `searchNodes` accumulates exactly the positive
spec scores in insertion order. -/
theorem searchNodes_fold (qL : String) :
    ∀ (l : List (String × JNode)) (acc : List (JNode × Nat)),
      (∀ kv ∈ l, searchRelevance qL kv.2 = .ok (specRelevance qL kv.2)) →
      l.foldlM
        (fun acc kv => do
          let node := kv.2
          let relevance ← searchRelevance qL node
          pure (if relevance > 0 then acc ++ [(node, relevance)] else acc))
        acc =
      .ok (acc ++ l.filterMap fun kv =>
        let r := specRelevance qL kv.2
        if r > 0 then some (kv.2, r) else none) := by
  intro l
  induction l with
  | nil =>
    intro acc _
    rw [List.foldlM_nil, List.filterMap_nil, List.append_nil]
    rfl
  | cons kv l ihl =>
    intro acc h
    rw [List.foldlM_cons]
    have hstep : (do
        let node := kv.2
        let relevance ← searchRelevance qL node
        pure (if relevance > 0 then acc ++ [(node, relevance)] else acc)) =
        (Except.ok (if specRelevance qL kv.2 > 0 then
          acc ++ [(kv.2, specRelevance qL kv.2)] else acc) : Except String _) := by
      rw [show (do
        let node := kv.2
        let relevance ← searchRelevance qL node
        pure (if relevance > 0 then acc ++ [(node, relevance)] else acc)) =
          (searchRelevance qL kv.2 >>= fun relevance =>
            pure (if relevance > 0 then acc ++ [(kv.2, relevance)] else acc)) from rfl,
        h kv (List.mem_cons_self kv l)]
      rfl
    rw [hstep]
    show List.foldlM _ _ l = _
    rw [ihl _ fun x hx => h x (List.mem_cons_of_mem kv hx),
      List.filterMap_cons]
    by_cases hr : specRelevance qL kv.2 > 0
    · rw [if_pos hr]
      show Except.ok _ = _
      rw [show (if specRelevance qL kv.2 > 0 then
          some (kv.2, specRelevance qL kv.2) else none) =
        some (kv.2, specRelevance qL kv.2) from if_pos hr]
      rw [List.append_assoc, List.singleton_append]
    · rw [if_neg hr]
      show Except.ok _ = _
      rw [show (if specRelevance qL kv.2 > 0 then
          some (kv.2, specRelevance qL kv.2) else none) = none from if_neg hr]

end CtxGen

namespace CtxGen

open KnowledgeGraph in
/-- Elements of a stable insertion. -/
theorem mem_insertScoredDesc (x : JNode × Nat) :
    ∀ (l : List (JNode × Nat)) (z : JNode × Nat),
      z ∈ insertScoredDesc x l → z = x ∨ z ∈ l := by
  intro l
  induction l with
  | nil =>
    intro z hz
    rcases List.mem_singleton.mp hz with rfl
    exact Or.inl rfl
  | cons y ys ihy =>
    intro z hz
    rw [insertScoredDesc] at hz
    by_cases hxy : x.2 ≥ y.2
    · rw [if_pos hxy] at hz
      rcases List.mem_cons.mp hz with rfl | hz
      · exact Or.inl rfl
      · exact Or.inr hz
    · rw [if_neg hxy] at hz
      rcases List.mem_cons.mp hz with rfl | hz
      · exact Or.inr (List.mem_cons_self z ys)
      · rcases ihy z hz with h | h
        · exact Or.inl h
        · exact Or.inr (List.mem_cons_of_mem y h)

open KnowledgeGraph in
/-- Stable insertion preserves the descending order. -/
theorem pairwise_insertScoredDesc (x : JNode × Nat) :
    ∀ (l : List (JNode × Nat)),
      l.Pairwise (fun a b => b.2 ≤ a.2) →
      (insertScoredDesc x l).Pairwise (fun a b => b.2 ≤ a.2) := by
  intro l
  induction l with
  | nil => intro _; exact List.pairwise_singleton _ x
  | cons y ys ihy =>
    intro hp
    rw [List.pairwise_cons] at hp
    rw [insertScoredDesc]
    by_cases hxy : x.2 ≥ y.2
    · rw [if_pos hxy]
      rw [List.pairwise_cons]
      refine ⟨?_, List.pairwise_cons.mpr hp⟩
      intro z hz
      rcases List.mem_cons.mp hz with rfl | hz
      · exact hxy
      · exact le_trans (hp.1 z hz) hxy
    · rw [if_neg hxy]
      rw [List.pairwise_cons]
      refine ⟨?_, ihy hp.2⟩
      intro z hz
      rcases mem_insertScoredDesc x (ys) z hz with rfl | hz
      · exact le_of_lt (Nat.lt_of_not_le hxy)
      · exact hp.1 z hz

open KnowledgeGraph in
/-- The modelled stable sort is sorted descending by relevance. -/
theorem sortScoredDesc_pairwise : ∀ (l : List (JNode × Nat)),
    (sortScoredDesc l).Pairwise (fun a b => b.2 ≤ a.2) := by
  intro l
  induction l with
  | nil => exact List.Pairwise.nil
  | cons x l ihl => exact pairwise_insertScoredDesc x (sortScoredDesc l) ihl

open KnowledgeGraph in
/-- Stable insertion keeps each relevance class in place: inserting an
element only moves it past strictly larger relevances. -/
theorem filter_insertScoredDesc (x : JNode × Nat) (v : Nat) :
    ∀ (l : List (JNode × Nat)),
      (insertScoredDesc x l).filter (fun z => z.2 == v) =
        (x :: l).filter (fun z => z.2 == v) := by
  intro l
  induction l with
  | nil => rfl
  | cons y ys ihy =>
    rw [insertScoredDesc]
    by_cases hxy : x.2 ≥ y.2
    · rw [if_pos hxy]
    · rw [if_neg hxy]
      rw [List.filter_cons, ihy]
      by_cases hy : (y.2 == v) = true
      · rw [if_pos hy]
        by_cases hx : (x.2 == v) = true
        · exact absurd (by rw [eq_of_beq hx, eq_of_beq hy]) hxy
        · rw [List.filter_cons, if_neg hx, List.filter_cons, if_neg hx,
            List.filter_cons, if_pos hy]
      · rw [if_neg hy]
        rw [List.filter_cons, List.filter_cons, List.filter_cons, if_neg hy]

open KnowledgeGraph in
/-- The modelled stable sort preserves the insertion order inside every
relevance class. -/
theorem sortScoredDesc_filter (v : Nat) : ∀ (l : List (JNode × Nat)),
    (sortScoredDesc l).filter (fun z => z.2 == v) =
      l.filter (fun z => z.2 == v) := by
  intro l
  induction l with
  | nil => rfl
  | cons x l ihl =>
    show (insertScoredDesc x (sortScoredDesc l)).filter (fun z => z.2 == v) = _
    rw [filter_insertScoredDesc x v (sortScoredDesc l),
      List.filter_cons, List.filter_cons, ihl]

end CtxGen

namespace CtxGen

open KnowledgeGraph in
/-- Claim C4 (corrected) — for a nonempty query of word characters (where
the regex `\b query \b` is literal, so the claimed formula is exact) on
truthy-data nodes, `searchNodes` returns, scores every kept node by
2·[type contains query] + 1·[serialized data contains query] + 3·(count of
whole-word exact occurrences), sorts descending by relevance, and is
stable: each relevance class keeps insertion order.  (On general queries
the formula is wrong — see the counterexample: `.` in a query is a regex
wildcard, not a literal.) -/
theorem claim_C4_search_relevance_amended (g : KnowledgeGraph) (query : String)
    (hq : (sToLower query).data.all wordChar = true) (hne : query ≠ "")
    (hdata : ∀ kv ∈ g.nodes, kv.2.data.truthy = true) :
    g.searchNodes query =
      .ok ((sortScoredDesc (specScored g query)).map Prod.fst) ∧
    (sortScoredDesc (specScored g query)).Pairwise (fun a b => b.2 ≤ a.2) ∧
    (∀ v : Nat,
      (sortScoredDesc (specScored g query)).filter (fun z => z.2 == v) =
        (specScored g query).filter (fun z => z.2 == v)) := by
  refine ⟨?_, sortScoredDesc_pairwise _, fun v => sortScoredDesc_filter v _⟩
  have hneD : (sToLower query).data ≠ [] := by
    intro h0
    rw [sToLower_data] at h0
    exact hne ((strData_eq_nil_iff query).mp (List.map_eq_nil_iff.mp h0))
  simp only [KnowledgeGraph.searchNodes]
  rw [searchNodes_fold (sToLower query) g.nodes [] fun kv hkv =>
    searchRelevance_spec (sToLower query) hq hneD kv.2 (hdata kv hkv)]
  show Except.ok _ = _
  rw [List.nil_append]
  rfl

open KnowledgeGraph in
/-- Witness for the corrected C4 on the populated graph `gLogin` and the
word-character query `login`. -/
theorem claim_C4_search_relevance_amended_witness :
    gLogin.searchNodes "login" =
      .ok ((sortScoredDesc (specScored gLogin "login")).map Prod.fst) ∧
    (sortScoredDesc (specScored gLogin "login")).Pairwise
      (fun a b => b.2 ≤ a.2) := by
  have hdata : ∀ kv ∈ gLogin.nodes, kv.2.data.truthy = true := by
    have hall : gLogin.nodes.all (fun kv => kv.2.data.truthy) = true := by rfl
    intro kv hkv
    exact List.all_eq_true.mp hall kv hkv
  have h := claim_C4_search_relevance_amended gLogin "login" (by rfl)
    (by decide) hdata
  exact ⟨h.1, h.2.1⟩

end CtxGen
